import Mathlib

/-!
Verification of the shape-matching and text-fitting subsystem of the
flash-report generator (scripts/generate_ppt.py) and of the polling loop of
the third-party API client (scripts/generate_ppt_gamma.py).

Modelling conventions:
* Python strings are modelled as `List Char` (sequences of code points).
  Python slicing `s[:k]` with `k ≥ 0` is `List.take k`; `s[:-3]` under the
  guard `len(s) > 3` is `List.take (s.length - 3)`.
* Python floats are modelled as exact rationals `ℚ`; arithmetic on the
  coordinate values of this program is treated as real arithmetic.  The
  comparison `dist < best` of Euclidean distances computed with `** 0.5`
  is modelled by comparing squared distances, which is equivalent over the
  reals since squaring is strictly monotone on nonnegative numbers; the
  tolerance test `dist <= tol` becomes `sqdist ≤ tol * tol`.
  The threshold comparison `last_space > max_chars * 0.7` compares an int
  with an IEEE-754 double; it is modelled exactly: `pyTimes07 max_chars`
  is the rational value of the double product (the double nearest 0.7,
  6305039478318694 / 2^53, times the exactly converted integer, rounded
  to 53 significant bits with ties to even).  At budget 180 that product
  is 125.99999999999999, strictly below the exact 126 = 180 * 7 / 10.
  The font-size thresholds `len > 0.8 * total` / `len > 0.95 * total`
  are modelled as `5 * len > 4 * total` / `20 * len > 19 * total`, which
  coincide with the double computation at every configured total.
* Python objects (pptx shapes) are modelled by a numeric identity `id`;
  the mutable `matched_to` mark of verify_template becomes an explicit
  list of used ids, and dict iteration order is insertion order, as in
  CPython.
-/

/-- ASCII whitespace as stripped by Python's str.rstrip(). -/
def isPySpace (c : Char) : Bool :=
  c = ' ' || c = '\t' || c = '\n' || c = '\r' || c = '\x0b' || c = '\x0c'

/-- Python s.rstrip(): drop trailing whitespace. -/
def pyRstrip (l : List Char) : List Char :=
  (l.reverse.dropWhile isPySpace).reverse

/-- Python s.rfind(' '): index of the last space, if any. -/
def lastSpaceIdx : List Char → Option Nat
  | [] => none
  | c :: rest =>
    match lastSpaceIdx rest with
    | some i => some (i + 1)
    | none => if c = ' ' then some 0 else none

/-- Python s.split('\n'). -/
def splitNlCh : List Char → List (List Char)
  | [] => [[]]
  | c :: rest =>
    if c = '\n' then [] :: splitNlCh rest
    else
      match splitNlCh rest with
      | [] => [[c]]
      | l :: ls => (c :: l) :: ls

/-- Python '\n'.join(lines). -/
def joinNl : List (List Char) → List Char
  | [] => []
  | [l] => l
  | l :: ls => l ++ '\n' :: joinNl ls

/-- The ellipsis string '...' used throughout the script. -/
def ellipsisChars : List Char := ['.', '.', '.']

/-- Python s.endswith('...'). -/
def endsWithEllipsis (l : List Char) : Bool :=
  l.reverse.take 3 = ellipsisChars

/-- Number of newline-separated segments of a text. -/
def numLines (t : List Char) : Nat := (splitNlCh t).length

/-- Round N / 2^shift to the nearest integer, ties to even: the mantissa
rounding step of IEEE-754 double-precision arithmetic. -/
def roundMantissa (N : Nat) (shift : Nat) : Nat :=
  if shift = 0 then N
  else if N % 2 ^ shift < 2 ^ (shift - 1) then N / 2 ^ shift
  else if 2 ^ (shift - 1) < N % 2 ^ shift then N / 2 ^ shift + 1
  else if N / 2 ^ shift % 2 = 0 then N / 2 ^ shift else N / 2 ^ shift + 1

/-- The exact rational value of the CPython double `max_chars * 0.7`:
the double nearest 0.7 is 6305039478318694 / 2^53, the int max_chars
converts to double exactly (for max_chars < 2^53), and the product is
rounded to 53 significant bits, ties to even.  At m = 180 this gives
8866461766385663 / 2^46 = 125.99999999999998578..., the double printed
as 125.99999999999999, strictly below the exact 126. -/
def pyTimes07 (m : Nat) : ℚ :=
  let N := m * 6305039478318694
  let s := N.log2
  if s ≤ 52 then (N : ℚ) / 2 ^ 53
  else ((roundMantissa N (s - 52) : ℚ) * 2 ^ (s - 52)) / 2 ^ 53

/-- Embedding of truncate_text (generate_ppt.py lines 651-673).
`if not text or len(text) <= max_chars: return text or ''`, then hard
truncation to `max_chars - len(ellipsis)`, an optional break at the last
space when `last_space > max_chars * 0.7` (an int-double comparison,
modelled exactly by pyTimes07), right-strip and append the ellipsis. -/
def truncate_text (text : List Char) (max_chars : Nat) (ellipsis : List Char) :
    List Char :=
  if text = [] ∨ text.length ≤ max_chars then text
  else
    let truncated := text.take (max_chars - ellipsis.length)
    let truncated2 :=
      match lastSpaceIdx truncated with
      | some ls =>
        if (ls : ℚ) > pyTimes07 max_chars then truncated.take ls else truncated
      | none => truncated
    pyRstrip truncated2 ++ ellipsis

/-- truncate_text on an optional (possibly None) input: Python's
`if not text: return text or ''` sends None to ''. -/
def truncate_textO (text : Option (List Char)) (max_chars : Nat)
    (ellipsis : List Char) : List Char :=
  truncate_text (text.getD []) max_chars ellipsis

/-- The cap step of truncate_lines (lines 698-706): after `lines[:max_lines]`,
if the last kept line is nonempty and does not already end in '...', it is
right-stripped; then its last three characters are replaced by '...' if it is
longer than three characters, otherwise a new line '...' is appended. -/
def capLines (kept : List (List Char)) : List (List Char) :=
  match kept.getLast? with
  | none => kept
  | some last =>
    if last = [] ∨ endsWithEllipsis last then kept
    else
      let lastR := pyRstrip last
      if lastR.length > 3 then
        kept.dropLast ++ [lastR.take (lastR.length - 3) ++ ellipsisChars]
      else
        kept.dropLast ++ [lastR, ellipsisChars]

/-- The per-line truncation of truncate_lines (line 694):
`truncate_text(line, max_chars_per_line, '...') if len(line) > max_chars_per_line else line`. -/
def perLine (cpl : Nat) (l : List Char) : List Char :=
  if l.length > cpl then truncate_text l cpl ellipsisChars else l

/-- Embedding of truncate_lines (generate_ppt.py lines 676-708).
`max_chars_per_line` is optional and falsy when 0, as in Python. -/
def truncate_lines (text : List Char) (max_lines : Nat)
    (max_chars_per_line : Option Nat) : List Char :=
  if text = [] then []
  else
    let lines := splitNlCh text
    let lines1 :=
      match max_chars_per_line with
      | some cpl => if cpl ≠ 0 then lines.map (perLine cpl) else lines
      | none => lines
    let lines2 :=
      if lines1.length > max_lines then capLines (lines1.take max_lines) else lines1
    joinNl lines2

/-- TEXT_LIMITS (generate_ppt.py lines 191-202):
field ↦ (max_chars_per_line, max_lines, total_char_limit). -/
def TEXT_LIMITS (field : String) : Option (Nat × Nat × Nat) :=
  if field = "title" then some (80, 1, 80)
  else if field = "date" then some (10, 1, 10)
  else if field = "mood_status" then some (50, 3, 120)
  else if field = "scope" then some (50, 4, 180)
  else if field = "achievements" then some (55, 5, 250)
  else if field = "trends" then some (50, 3, 120)
  else if field = "next_steps" then some (50, 4, 180)
  else if field = "made" then some (50, 5, 200)
  else if field = "risks" then some (50, 4, 180)
  else if field = "budget" then some (45, 6, 220)
  else none

/-- FONT_SIZES (generate_ppt.py lines 205-211). -/
def FONT_SIZES (k : String) : Option Nat :=
  if k = "title" then some 14
  else if k = "date" then some 8
  else if k = "content" then some 9
  else if k = "content_small" then some 8
  else if k = "content_tiny" then some 7
  else none

/-- `TEXT_LIMITS.get(field_name, (50, 4, 180))` of fit_text_to_shape. -/
def limitsOf (field : String) : Nat × Nat × Nat :=
  (TEXT_LIMITS field).getD (50, 4, 180)

/-- The font-size selection of fit_text_to_shape (lines 737-743):
9, stepped down to 8 above 80% of the budget and to 7 above 95%. -/
def fontFor (len total : Nat) : Nat :=
  if 20 * len > 19 * total then (FONT_SIZES "content_tiny").getD 7
  else if 5 * len > 4 * total then (FONT_SIZES "content_small").getD 8
  else (FONT_SIZES "content").getD 9

/-- Embedding of fit_text_to_shape (generate_ppt.py lines 711-749):
total-budget truncation, then line limits, then font size, then the
optional prefix newline. -/
def fit_text_to_shape (text : List Char) (field_name : String)
    (add_prefix_newline : Bool) : List Char × Nat :=
  if text = [] then
    ((if add_prefix_newline then ['\n'] else []), (FONT_SIZES "content").getD 9)
  else
    let limits := limitsOf field_name
    let total := limits.2.2
    let t1 := if text.length > total then truncate_text text total ellipsisChars else text
    let t2 := truncate_lines t1 limits.2.1 (some limits.1)
    ((if add_prefix_newline then '\n' :: t2 else t2), fontFor t2.length total)

/-- A text-bearing shape of a slide: an object identity plus its rounded
top-left coordinate in inches.  Distinct pptx shape objects are modelled by
distinct ids. -/
structure Shape where
  id : Nat
  x : ℚ
  y : ℚ
deriving DecidableEq

/-- The rounded top-left coordinate of a shape. -/
def coords (s : Shape) : ℚ × ℚ := (s.x, s.y)

/-- Squared Euclidean distance.  The script compares square roots; over the
reals this is equivalent to comparing the squares. -/
def sqDist (p q : ℚ × ℚ) : ℚ :=
  (p.1 - q.1) * (p.1 - q.1) + (p.2 - q.2) * (p.2 - q.2)

/-- POSITION_TOLERANCE (generate_ppt.py line 168), in inches. -/
def POSITION_TOLERANCE : ℚ := 3 / 10

/-- Squared position tolerance, used so that all comparisons stay in ℚ. -/
def TOL2 : ℚ := POSITION_TOLERANCE * POSITION_TOLERANCE

/-- EXPECTED_SHAPE_POSITIONS (generate_ppt.py lines 153-165). -/
def EXPECTED_SHAPE_POSITIONS : List (String × ℚ × ℚ) :=
  [("title", 39/100, 17/100),
   ("date", 888/100, 8/100),
   ("mood_status", 39/100, 98/100),
   ("scope", 35/100, 193/100),
   ("info", 37/100, 215/100),
   ("achievements", 39/100, 316/100),
   ("trends", 39/100, 432/100),
   ("next_steps", 39/100, 453/100),
   ("made", 514/100, 1),
   ("risks", 514/100, 248/100),
   ("budget", 513/100, 44/10)]

/-- The inner scan of verify_template (lines 279-288): walk the shape list
left to right, skip shapes already matched to a field, keep the strictly
closest shape seen so far together with its squared distance. -/
def scanBest (pos : ℚ × ℚ) (used : List Nat) :
    Option (Shape × ℚ) → List Shape → Option (Shape × ℚ)
  | acc, [] => acc
  | acc, s :: rest =>
    scanBest pos used
      (if s.id ∈ used then acc
       else
         match acc with
         | none => some (s, sqDist (coords s) pos)
         | some (b, d) =>
           if sqDist (coords s) pos < d then some (s, sqDist (coords s) pos)
           else some (b, d)) rest

/-- The evolving state of the verify_template matching loop: the
field-to-shape bindings made so far, the ids of shapes already matched
(the `matched_to` marks), and the fields reported missing. -/
structure MatchState where
  assigned : List (String × Shape)
  used : List Nat
  missing : List String
deriving DecidableEq

/-- One iteration of the loop over EXPECTED_SHAPE_POSITIONS
(lines 277-321): find the closest unmatched shape; bind it when it is
within tolerance, otherwise report the field missing. -/
def matchStep (shapes : List Shape) (st : MatchState) (f : String × ℚ × ℚ) :
    MatchState :=
  match scanBest f.2 st.used none shapes with
  | some (b, d) =>
    if d ≤ TOL2 then
      { assigned := st.assigned ++ [(f.1, b)]
        used := st.used ++ [b.id]
        missing := st.missing }
    else
      { st with missing := st.missing ++ [f.1] }
  | none => { st with missing := st.missing ++ [f.1] }

/-- The whole matching loop of verify_template over a list of expected
fields (dict iteration order is insertion order). -/
def runMatch (fields : List (String × ℚ × ℚ)) (shapes : List Shape) :
    MatchState :=
  fields.foldl (matchStep shapes) ⟨[], [], []⟩

/-- The new_shapes report of verify_template (lines 324-331): shapes whose
`matched_to` mark was never set. -/
def newShapesOf (st : MatchState) (shapes : List Shape) : List Shape :=
  shapes.filter (fun s => decide (s.id ∉ st.used))

/-- The shapes not yet matched to any field, in list order.  This is the
candidate set actually scanned by scanBest. -/
def availOf (used : List Nat) (l : List Shape) : List Shape :=
  l.filter (fun s => decide (s.id ∉ used))

/-- Earliest-minimum selection over a candidate list: the head wins ties,
a strictly smaller squared distance found later wins.  This is the
denotation of the accumulator scan. -/
def mergeOpt : Option (Shape × ℚ) → Option (Shape × ℚ) → Option (Shape × ℚ)
  | none, b => b
  | some a, none => some a
  | some (s, d), some (t, e) => if e < d then some (t, e) else some (s, d)

/-- Minimum of a candidate list under mergeOpt. -/
def bestMin (pos : ℚ × ℚ) : List Shape → Option (Shape × ℚ)
  | [] => none
  | s :: rest => mergeOpt (some (s, sqDist (coords s) pos)) (bestMin pos rest)

/-- The eleven positions populate_project_slide looks up through
find_shape_by_pos (generate_ppt.py lines 1481-1715). -/
def POPULATE_POSITIONS : List (String × ℚ × ℚ) :=
  [("title", 39/100, 17/100),
   ("date", 888/100, 8/100),
   ("mood_status", 39/100, 98/100),
   ("scope", 35/100, 193/100),
   ("info", 37/100, 215/100),
   ("achievements", 39/100, 316/100),
   ("trends", 39/100, 432/100),
   ("next_steps", 39/100, 453/100),
   ("budget", 513/100, 44/10),
   ("made", 514/100, 1),
   ("risks", 514/100, 248/100)]

/-- Default tolerance 0.15 of find_shape_by_pos, squared. -/
def FIND_TOL2 : ℚ := (15 / 100) * (15 / 100)

/-- The scan of find_shape_by_pos (lines 1465-1475) over the items of the
position-to-shape dict: keep a candidate only when its distance is within
tolerance and strictly below the best so far.  Shapes are identified by id. -/
def findShapeAux (target : ℚ × ℚ) (tol2 : ℚ) :
    Option (Nat × ℚ) → List ((ℚ × ℚ) × Nat) → Option (Nat × ℚ)
  | acc, [] => acc
  | acc, e :: rest =>
    findShapeAux target tol2
      (if (decide (sqDist e.1 target ≤ tol2) &&
           match acc with
           | none => true
           | some (_, bd) => decide (sqDist e.1 target < bd)) then
        some (e.2, sqDist e.1 target)
      else acc) rest

/-- Embedding of find_shape_by_pos: the id of the closest shape within
tolerance, if any.  Unlike verify_template, no shape is ever marked used. -/
def find_shape_by_pos (shape_map : List ((ℚ × ℚ) × Nat)) (target : ℚ × ℚ)
    (tol2 : ℚ) : Option Nat :=
  (findShapeAux target tol2 none shape_map).map (fun p => p.1)

/-- Python round-half-to-even on an exact rational. -/
def pyRoundHalfEven (q : ℚ) : ℤ :=
  let f := ⌊q⌋
  if q - f < 1 / 2 then f
  else if 1 / 2 < q - f then f + 1
  else if f % 2 = 0 then f else f + 1

/-- Python round(x, nd) on an exact rational. -/
def pyRound (nd : Nat) (q : ℚ) : ℚ :=
  (pyRoundHalfEven (q * (10 : ℚ) ^ nd) : ℚ) / (10 : ℚ) ^ nd

/-- The shape index built by verify_template (lines 256-272): each
text-bearing shape's top-left coordinate, rounded to TWO decimal places,
with the list position as the shape's identity. -/
def buildShapePositions (raw : List (ℚ × ℚ)) : List Shape :=
  raw.enum.map (fun p => ⟨p.1, pyRound 2 p.2.1, pyRound 2 p.2.2⟩)

/-- Insertion into a Python dict modelled as an association list: an
existing key keeps its position and gets the new value, a new key is
appended. -/
def dictInsert (m : List ((ℚ × ℚ) × Nat)) (k : ℚ × ℚ) (v : Nat) :
    List ((ℚ × ℚ) × Nat) :=
  if m.any (fun e => decide (e.1 = k)) then
    m.map (fun e => if e.1 = k then (k, v) else e)
  else m ++ [(k, v)]

/-- The shape_map built by populate_project_slide (lines 1445-1450): each
text-bearing shape's top-left coordinate rounded to ONE decimal place,
mapped to the shape (its list position as identity). -/
def buildShapeMap (raw : List (ℚ × ℚ)) : List ((ℚ × ℚ) × Nat) :=
  raw.enum.foldl (fun m p => dictInsert m (pyRound 1 p.2.1, pyRound 1 p.2.2) p.1) []

/-- One HTTP poll response, as read by poll_generation: the status code,
the json status field, and the json error field ('' when absent). -/
structure PollResponse where
  status_code : Nat
  status : String
  error : String
deriving DecidableEq

/-- MAX_POLL_ATTEMPTS (generate_ppt_gamma.py line 26). -/
def MAX_POLL_ATTEMPTS : Nat := 60

/-- POLL_INTERVAL_SECONDS (generate_ppt_gamma.py line 25). -/
def POLL_INTERVAL_SECONDS : Nat := 5

/-- The timeout error returned after the last attempt (line 391). -/
def timeout_message : String :=
  "Timeout after " ++ toString (MAX_POLL_ATTEMPTS * POLL_INTERVAL_SECONDS) ++ " seconds"

/-- The body of the `for attempt in range(1, MAX_POLL_ATTEMPTS + 1)` loop of
poll_generation (lines 368-391), with the environment's responses given as a
function of the attempt number.  Returns the Python pair (result, error)
together with the number of polling attempts performed. -/
def pollLoop (responses : Nat → PollResponse) :
    Nat → Nat → (Option PollResponse × Option String) × Nat
  | _, 0 => ((none, some timeout_message), 0)
  | attempt, remaining + 1 =>
    let resp := responses attempt
    if resp.status_code = 200 then
      if resp.status = "completed" then ((some resp, none), 1)
      else if resp.status = "failed" then
        ((none, some ("Generation failed: " ++ resp.error)), 1)
      else
        let rest := pollLoop responses (attempt + 1) remaining
        (rest.1, rest.2 + 1)
    else
      let rest := pollLoop responses (attempt + 1) remaining
      (rest.1, rest.2 + 1)

/-- Embedding of poll_generation (generate_ppt_gamma.py lines 359-391). -/
def poll_generation (responses : Nat → PollResponse) :
    (Option PollResponse × Option String) × Nat :=
  pollLoop responses 1 MAX_POLL_ATTEMPTS

/-- A line of 48 letters, used to build concrete evaluation inputs. -/
def cexLine : List Char := List.replicate 48 'a'

/-- A 199-character text for the field 'made' (limits 50/5/200): four full
lines, a short fifth line, and a trailing newline. -/
def cexFitText : List Char :=
  cexLine ++ '\n' :: (cexLine ++ '\n' :: (cexLine ++ '\n' :: (cexLine ++ '\n' :: ('a' :: 'b' :: ['\n']))))

/-- A one-entry position-to-shape map whose single shape key (0.4, 4.4) is
within 0.15 of two distinct populate_project_slide lookup positions. -/
def cexShapeMap : List ((ℚ × ℚ) × Nat) := [((2/5, 22/5), 0)]

/-- A 187-character text: 126 'a', one space, 60 more 'a'.  Its hard
177-character prefix at budget 180 has its last space at index 126,
exactly 70 percent of the budget. -/
def c8CexText : List Char :=
  List.replicate 126 'a' ++ ' ' :: List.replicate 60 'a'

/-! ### Helper lemmas: the string model -/

theorem splitNl_ne_nil (l : List Char) : splitNlCh l ≠ [] := by
  cases l with
  | nil => simp [splitNlCh]
  | cons c rest =>
    simp only [splitNlCh]
    split
    · simp
    · cases h : splitNlCh rest <;> simp

theorem splitNl_cons_newline (rest : List Char) :
    splitNlCh ('\n' :: rest) = [] :: splitNlCh rest := by
  simp [splitNlCh]

theorem splitNl_cons_other (c : Char) (rest : List Char) (hc : c ≠ '\n')
    (h : List Char) (t : List (List Char)) (hr : splitNlCh rest = h :: t) :
    splitNlCh (c :: rest) = (c :: h) :: t := by
  simp only [splitNlCh, if_neg hc, hr]

theorem splitNl_append_nlfree (a b : List Char) (ha : '\n' ∉ a)
    (h : List Char) (t : List (List Char)) (hb : splitNlCh b = h :: t) :
    splitNlCh (a ++ b) = (a ++ h) :: t := by
  induction a with
  | nil => simpa using hb
  | cons c a ih =>
    have hc : c ≠ '\n' := by
      intro hh; exact ha (by simp [hh])
    have ha' : '\n' ∉ a := by
      intro hh; exact ha (by simp [hh])
    have := ih ha'
    exact splitNl_cons_other c (a ++ b) hc (a ++ h) t this

theorem splitNl_nlfree (a : List Char) (ha : '\n' ∉ a) : splitNlCh a = [a] := by
  have := splitNl_append_nlfree a [] ha [] [] (by simp [splitNlCh])
  simpa using this

theorem mem_splitNl_nlfree (l : List Char) :
    ∀ p ∈ splitNlCh l, '\n' ∉ p := by
  induction l with
  | nil => intro p hp; simp [splitNlCh] at hp; simp [hp]
  | cons c rest ih =>
    intro p hp
    by_cases hc : c = '\n'
    · subst hc
      rw [splitNl_cons_newline, List.mem_cons] at hp
      rcases hp with hp | hp
      · simp [hp]
      · exact ih p hp
    · obtain ⟨h, t, hr⟩ : ∃ h t, splitNlCh rest = h :: t := by
        cases hx : splitNlCh rest with
        | nil => exact absurd hx (splitNl_ne_nil rest)
        | cons h t => exact ⟨h, t, rfl⟩
      rw [splitNl_cons_other c rest hc h t hr, List.mem_cons] at hp
      rcases hp with hp | hp
      · subst hp
        intro hmem
        rw [List.mem_cons] at hmem
        rcases hmem with hmem | hmem
        · exact hc hmem.symm
        · exact ih h (by simp [hr]) hmem
      · exact ih p (by simp [hr, hp])

theorem joinNl_cons (h : List Char) (t : List (List Char)) (ht : t ≠ []) :
    joinNl (h :: t) = h ++ '\n' :: joinNl t := by
  cases t with
  | nil => exact absurd rfl ht
  | cons a t' => simp [joinNl]

theorem joinNl_cons_cons (c : Char) (h : List Char) (t : List (List Char)) :
    joinNl ((c :: h) :: t) = c :: joinNl (h :: t) := by
  cases t with
  | nil => simp [joinNl]
  | cons a t' => simp [joinNl]

theorem joinNl_splitNl (l : List Char) : joinNl (splitNlCh l) = l := by
  induction l with
  | nil => simp [splitNlCh, joinNl]
  | cons c rest ih =>
    by_cases hc : c = '\n'
    · subst hc
      rw [splitNl_cons_newline]
      rw [joinNl_cons [] (splitNlCh rest) (splitNl_ne_nil rest), ih]
      simp
    · obtain ⟨h, t, hr⟩ : ∃ h t, splitNlCh rest = h :: t := by
        cases hx : splitNlCh rest with
        | nil => exact absurd hx (splitNl_ne_nil rest)
        | cons h t => exact ⟨h, t, rfl⟩
      rw [splitNl_cons_other c rest hc h t hr, joinNl_cons_cons, ← hr, ih]

theorem splitNl_joinNl (L : List (List Char)) (hne : L ≠ [])
    (hfree : ∀ p ∈ L, '\n' ∉ p) : splitNlCh (joinNl L) = L := by
  induction L with
  | nil => exact absurd rfl hne
  | cons h t ih =>
    cases t with
    | nil =>
      simp only [joinNl]
      exact splitNl_nlfree h (hfree h (by simp))
    | cons a t' =>
      rw [joinNl_cons h (a :: t') (by simp)]
      have hrec : splitNlCh (joinNl (a :: t')) = a :: t' := by
        exact ih (by simp) (fun p hp => hfree p (by simp [hp]))
      have : splitNlCh ('\n' :: joinNl (a :: t')) = [] :: a :: t' := by
        rw [splitNl_cons_newline, hrec]
      have happ := splitNl_append_nlfree h ('\n' :: joinNl (a :: t'))
        (hfree h (by simp)) [] (a :: t') this
      simpa using happ

theorem length_joinNl (L : List (List Char)) (hne : L ≠ []) :
    (joinNl L).length + 1 = (L.map List.length).sum + L.length := by
  induction L with
  | nil => exact absurd rfl hne
  | cons h t ih =>
    cases t with
    | nil => simp [joinNl]
    | cons a t' =>
      rw [joinNl_cons h (a :: t') (by simp)]
      have := ih (by simp)
      simp only [List.length_append, List.length_cons, List.map_cons, List.sum_cons] at *
      omega

theorem mem_pyRstrip (l : List Char) (c : Char) (h : c ∈ pyRstrip l) : c ∈ l := by
  unfold pyRstrip at h
  rw [List.mem_reverse] at h
  have := (l.reverse.dropWhile_sublist isPySpace).mem h
  rwa [List.mem_reverse] at this

theorem pyRstrip_length_le (l : List Char) : (pyRstrip l).length ≤ l.length := by
  unfold pyRstrip
  calc (l.reverse.dropWhile isPySpace).reverse.length
      = (l.reverse.dropWhile isPySpace).length := by rw [List.length_reverse]
    _ ≤ l.reverse.length := (l.reverse.dropWhile_sublist isPySpace).length_le
    _ = l.length := List.length_reverse l

/-! ### Helper lemmas: truncate_text -/

theorem truncate_text_of_fits (t : List Char) (m : Nat) (e : List Char)
    (h : t.length ≤ m) : truncate_text t m e = t := by
  unfold truncate_text
  exact if_pos (Or.inr h)

theorem truncate_text_length_of_gt (t : List Char) (m : Nat)
    (h : m < t.length) : (truncate_text t m ellipsisChars).length ≤ m - 3 + 3 := by
  unfold truncate_text
  rw [if_neg]
  · have hlen : ∀ u : List Char, u.length ≤ (t.take (m - 3)).length →
        (pyRstrip u ++ ellipsisChars).length ≤ m - 3 + 3 := by
      intro u hu
      have h1 : (pyRstrip u).length ≤ u.length := pyRstrip_length_le u
      have h2 : (t.take (m - 3)).length ≤ m - 3 := by
        rw [List.length_take]; omega
      have : (pyRstrip u ++ ellipsisChars).length = (pyRstrip u).length + 3 := by
        simp [ellipsisChars]
      omega
    have he : ellipsisChars.length = 3 := by simp [ellipsisChars]
    rw [he]
    show (pyRstrip (match lastSpaceIdx (List.take (m - 3) t) with
      | some ls =>
        if (ls : ℚ) > pyTimes07 m then List.take ls (List.take (m - 3) t)
        else List.take (m - 3) t
      | none => List.take (m - 3) t) ++ ellipsisChars).length ≤ m - 3 + 3
    split
    · split
      · exact hlen _ (by rw [List.length_take, List.length_take]; omega)
      · exact hlen _ le_rfl
    · exact hlen _ le_rfl
  · push_neg
    constructor
    · intro hnil; rw [hnil] at h; simp at h
    · omega

theorem truncate_text_length_le (t : List Char) (m : Nat) (hm : 3 ≤ m) :
    (truncate_text t m ellipsisChars).length ≤ max m t.length := by
  by_cases h : t.length ≤ m
  · rw [truncate_text_of_fits t m ellipsisChars h]
    exact le_max_right _ _
  · push_neg at h
    have := truncate_text_length_of_gt t m h
    have : (truncate_text t m ellipsisChars).length ≤ m := by omega
    exact le_trans this (le_max_left _ _)

theorem truncate_text_nlfree (t : List Char) (m : Nat) (ht : '\n' ∉ t) :
    '\n' ∉ truncate_text t m ellipsisChars := by
  unfold truncate_text
  split
  · exact ht
  · intro hmem
    rw [List.mem_append] at hmem
    rcases hmem with hmem | hmem
    · have : '\n' ∈ t := by
        have h2 := mem_pyRstrip _ _ hmem
        revert h2
        split
        · split
          · intro h3
            exact List.mem_of_mem_take (List.mem_of_mem_take h3)
          · intro h3
            exact List.mem_of_mem_take h3
        · intro h3
          exact List.mem_of_mem_take h3
      exact ht this
    · simp [ellipsisChars] at hmem

/-! ### Helper lemmas: lastSpaceIdx (Python rfind(' ')) -/

theorem lastSpaceIdx_none (l : List Char) (h : lastSpaceIdx l = none) :
    ' ' ∉ l := by
  induction l with
  | nil => simp
  | cons c rest ih =>
    intro hmem
    unfold lastSpaceIdx at h
    revert h
    cases hr : lastSpaceIdx rest with
    | some i => intro h; exact absurd h (by simp)
    | none =>
      intro h
      rw [List.mem_cons] at hmem
      rcases hmem with hmem | hmem
      · rw [← hmem] at h; simp at h
      · exact ih hr hmem

theorem lastSpaceIdx_spec (l : List Char) (k : Nat)
    (h : lastSpaceIdx l = some k) :
    k < l.length ∧ l.get? k = some ' ' ∧ ∀ j, k < j → l.get? j ≠ some ' ' := by
  induction l generalizing k with
  | nil => simp [lastSpaceIdx] at h
  | cons c rest ih =>
    unfold lastSpaceIdx at h
    revert h
    cases hr : lastSpaceIdx rest with
    | some i =>
      intro h
      have hk : k = i + 1 := by
        have := h
        simp at this
        omega
      subst hk
      obtain ⟨h1, h2, h3⟩ := ih i hr
      refine ⟨by simp; omega, by simpa using h2, ?_⟩
      intro j hj
      cases j with
      | zero => omega
      | succ j' =>
        simp only [List.get?_cons_succ]
        exact h3 j' (by omega)
    | none =>
      intro h
      by_cases hc : c = ' '
      · rw [if_pos hc] at h
        have hk : k = 0 := by simpa using h.symm
        subst hk
        refine ⟨by simp, by simpa using hc, ?_⟩
        intro j hj
        cases j with
        | zero => omega
        | succ j' =>
          simp only [List.get?_cons_succ]
          intro hsp
          exact lastSpaceIdx_none rest hr (List.get?_mem hsp)
      · rw [if_neg hc] at h
        exact absurd h (by simp)

/-! ### Helper lemmas: the configured limits -/

theorem limitsOf_bounds (f : String) :
    10 ≤ (limitsOf f).1 ∧ 1 ≤ (limitsOf f).2.1 ∧ 10 ≤ (limitsOf f).2.2 := by
  unfold limitsOf TEXT_LIMITS
  split_ifs <;> decide

/-! ### Helper lemmas: perLine and capLines -/

theorem perLine_length_le (cpl : Nat) (hcpl : 3 ≤ cpl) (l : List Char) :
    (perLine cpl l).length ≤ l.length := by
  unfold perLine
  split
  · have h1 := truncate_text_length_of_gt l cpl (by omega)
    omega
  · exact le_rfl

theorem perLine_le_cpl (cpl : Nat) (hcpl : 3 ≤ cpl) (l : List Char) :
    (perLine cpl l).length ≤ cpl := by
  unfold perLine
  split
  · have h1 := truncate_text_length_of_gt l cpl (by omega)
    omega
  · omega

theorem perLine_nlfree (cpl : Nat) (l : List Char) (hl : '\n' ∉ l) :
    '\n' ∉ perLine cpl l := by
  unfold perLine
  split
  · exact truncate_text_nlfree l cpl hl
  · exact hl

theorem perLine_of_fits (cpl : Nat) (l : List Char) (h : l.length ≤ cpl) :
    perLine cpl l = l := by
  unfold perLine
  rw [if_neg (by omega)]

theorem capLines_nil : capLines [] = [] := by
  simp [capLines]

theorem capLines_ne_nil (kept : List (List Char)) (h : kept ≠ []) :
    capLines kept ≠ [] := by
  cases hk : kept.getLast? with
  | none => simpa [capLines, hk] using h
  | some last =>
    simp only [capLines, hk]
    split_ifs <;> simp [h]

theorem capLines_length_le (kept : List (List Char)) :
    (capLines kept).length ≤ kept.length + 1 := by
  cases hk : kept.getLast? with
  | none => simp [capLines, hk]
  | some last =>
    have hsplit := List.dropLast_append_getLast? last hk
    have hlen : kept.length = kept.dropLast.length + 1 := by
      conv_lhs => rw [← hsplit]
      simp
    simp only [capLines, hk]
    split_ifs <;> (simp; try omega)

theorem capLines_sum_le (kept : List (List Char)) :
    ((capLines kept).map List.length).sum ≤ (kept.map List.length).sum + 3 := by
  cases hk : kept.getLast? with
  | none => simp [capLines, hk]
  | some last =>
    have hsplit := List.dropLast_append_getLast? last hk
    have hsum : (kept.map List.length).sum
        = (kept.dropLast.map List.length).sum + last.length := by
      conv_lhs => rw [← hsplit]
      simp
    have hr : (pyRstrip last).length ≤ last.length := pyRstrip_length_le last
    simp only [capLines, hk]
    split_ifs with h1 h2
    · omega
    · have h3 : (List.take ((pyRstrip last).length - 3) (pyRstrip last)
          ++ ellipsisChars).length = ((pyRstrip last).length - 3) + 3 := by
        rw [List.length_append, List.length_take]
        simp only [ellipsisChars, List.length_cons, List.length_nil]
        omega
      simp only [List.map_append, List.sum_append, List.map_cons, List.sum_cons,
        List.map_nil, List.sum_nil, h3]
      omega
    · have h3 : ellipsisChars.length = 3 := by simp [ellipsisChars]
      simp only [List.map_append, List.sum_append, List.map_cons, List.sum_cons,
        List.map_nil, List.sum_nil, h3]
      omega

theorem capLines_pieces_le (kept : List (List Char)) (cpl : Nat) (hcpl : 3 ≤ cpl)
    (hp : ∀ p ∈ kept, p.length ≤ cpl) :
    ∀ p ∈ capLines kept, p.length ≤ cpl := by
  cases hk : kept.getLast? with
  | none => simpa [capLines, hk] using hp
  | some last =>
    have hsplit := List.dropLast_append_getLast? last hk
    have hlast : last ∈ kept := by
      rw [← hsplit]; exact List.mem_append_right _ (by simp)
    have hdrop : ∀ p ∈ kept.dropLast, p ∈ kept := by
      intro p hpmem
      rw [← hsplit]; exact List.mem_append_left _ hpmem
    have hr : (pyRstrip last).length ≤ last.length := pyRstrip_length_le last
    simp only [capLines, hk]
    split_ifs with h1 h2
    · exact hp
    · intro p hpmem
      rw [List.mem_append] at hpmem
      rcases hpmem with hpmem | hpmem
      · exact hp p (hdrop p hpmem)
      · have hpe : p = List.take ((pyRstrip last).length - 3) (pyRstrip last)
            ++ ellipsisChars := by simpa using hpmem
        rw [hpe, List.length_append, List.length_take]
        have := hp last hlast
        simp only [ellipsisChars, List.length_cons, List.length_nil]
        omega
    · intro p hpmem
      rw [List.mem_append] at hpmem
      rcases hpmem with hpmem | hpmem
      · exact hp p (hdrop p hpmem)
      · have := hp last hlast
        rw [List.mem_cons] at hpmem
        rcases hpmem with hpe | hpe
        · rw [hpe]; omega
        · have hpe2 : p = ellipsisChars := by simpa using hpe
          rw [hpe2]; simp only [ellipsisChars, List.length_cons, List.length_nil]; omega

theorem capLines_nlfree (kept : List (List Char))
    (hp : ∀ p ∈ kept, '\n' ∉ p) :
    ∀ p ∈ capLines kept, '\n' ∉ p := by
  cases hk : kept.getLast? with
  | none => simpa [capLines, hk] using hp
  | some last =>
    have hsplit := List.dropLast_append_getLast? last hk
    have hlast : last ∈ kept := by
      rw [← hsplit]; exact List.mem_append_right _ (by simp)
    have hdrop : ∀ p ∈ kept.dropLast, p ∈ kept := by
      intro p hpmem
      rw [← hsplit]; exact List.mem_append_left _ hpmem
    have hlastfree : '\n' ∉ last := hp last hlast
    have hrfree : '\n' ∉ pyRstrip last := fun hmem => hlastfree (mem_pyRstrip _ _ hmem)
    have hell : '\n' ∉ ellipsisChars := by simp [ellipsisChars]
    simp only [capLines, hk]
    split_ifs with h1 h2
    · exact hp
    · intro p hpmem
      rw [List.mem_append] at hpmem
      rcases hpmem with hpmem | hpmem
      · exact hp p (hdrop p hpmem)
      · have hpe : p = List.take ((pyRstrip last).length - 3) (pyRstrip last)
            ++ ellipsisChars := by simpa using hpmem
        rw [hpe]
        intro hmem
        rw [List.mem_append] at hmem
        rcases hmem with hmem | hmem
        · exact hrfree (List.mem_of_mem_take hmem)
        · exact hell hmem
    · intro p hpmem
      rw [List.mem_append] at hpmem
      rcases hpmem with hpmem | hpmem
      · exact hp p (hdrop p hpmem)
      · rw [List.mem_cons] at hpmem
        rcases hpmem with hpe | hpe
        · rw [hpe]; exact hrfree
        · have hpe2 : p = ellipsisChars := by simpa using hpe
          rw [hpe2]; exact hell

/-! ### Helper lemmas: truncate_lines -/

theorem numLines_joinNl (L : List (List Char)) (hne : L ≠ [])
    (hfree : ∀ p ∈ L, '\n' ∉ p) : numLines (joinNl L) = L.length := by
  unfold numLines
  rw [splitNl_joinNl L hne hfree]

theorem numLines_nil : numLines [] = 1 := by
  simp [numLines, splitNlCh]

theorem linesPipeline_numLines_le (lines1 : List (List Char)) (ml : Nat)
    (hne : lines1 ≠ []) (hfree : ∀ p ∈ lines1, '\n' ∉ p) :
    numLines (joinNl
      (if lines1.length > ml then capLines (lines1.take ml) else lines1))
      ≤ ml + 1 := by
  split_ifs with hgt
  · by_cases hml : ml = 0
    · subst hml
      simp [capLines_nil, joinNl, numLines_nil]
    · have hkne : lines1.take ml ≠ [] := by
        apply List.ne_nil_of_length_pos
        rw [List.length_take]
        have : 0 < lines1.length := List.length_pos.mpr hne
        omega
      have hkfree : ∀ p ∈ lines1.take ml, '\n' ∉ p :=
        fun p hp => hfree p (List.mem_of_mem_take hp)
      rw [numLines_joinNl _ (capLines_ne_nil _ hkne) (capLines_nlfree _ hkfree)]
      have h1 := capLines_length_le (lines1.take ml)
      rw [List.length_take] at h1
      omega
  · rw [numLines_joinNl lines1 hne hfree]
    omega

theorem truncate_lines_numLines_le (t : List Char) (ml : Nat)
    (mc : Option Nat) : numLines (truncate_lines t ml mc) ≤ ml + 1 := by
  by_cases ht : t = []
  · simp [truncate_lines, ht, numLines_nil]
  · have hLne := splitNl_ne_nil t
    have hLfree := mem_splitNl_nlfree t
    cases mc with
    | none =>
      simp only [truncate_lines, if_neg ht]
      exact linesPipeline_numLines_le _ ml hLne hLfree
    | some cpl =>
      by_cases hc : cpl = 0
      · subst hc
        simp only [truncate_lines, if_neg ht, ne_eq, not_true_eq_false, if_false]
        exact linesPipeline_numLines_le _ ml hLne hLfree
      · simp only [truncate_lines, if_neg ht, ne_eq, hc, not_false_eq_true, if_true]
        refine linesPipeline_numLines_le _ ml (by simpa using hLne) ?_
        intro p hp
        rw [List.mem_map] at hp
        obtain ⟨l, hl, hpl⟩ := hp
        rw [← hpl]
        exact perLine_nlfree cpl l (hLfree l hl)

theorem truncate_lines_length_le (t : List Char) (ml cpl : Nat)
    (hcpl : 3 ≤ cpl) :
    (truncate_lines t ml (some cpl)).length ≤ t.length + 3 := by
  by_cases ht : t = []
  · simp [truncate_lines, ht]
  · have hc : cpl ≠ 0 := by omega
    simp only [truncate_lines, if_neg ht, ne_eq, hc, not_false_eq_true, if_true]
    have hLne := splitNl_ne_nil t
    have htot : t.length + 1
        = ((splitNlCh t).map List.length).sum + (splitNlCh t).length := by
      have h5 := length_joinNl (splitNlCh t) hLne
      rw [joinNl_splitNl] at h5
      exact h5
    have hsum1 : (((splitNlCh t).map (perLine cpl)).map List.length).sum
        ≤ ((splitNlCh t).map List.length).sum := by
      rw [List.map_map]
      exact List.sum_le_sum (fun l _ => perLine_length_le cpl hcpl l)
    have hlen1 : ((splitNlCh t).map (perLine cpl)).length = (splitNlCh t).length :=
      List.length_map _ _
    split_ifs with hgt
    · by_cases hml : ml = 0
      · subst hml
        simp [capLines_nil, joinNl]
      · have hkne : ((splitNlCh t).map (perLine cpl)).take ml ≠ [] := by
          apply List.ne_nil_of_length_pos
          rw [List.length_take]
          omega
        have hksum : ((((splitNlCh t).map (perLine cpl)).take ml).map List.length).sum
            ≤ (((splitNlCh t).map (perLine cpl)).map List.length).sum := by
          rw [List.map_take]
          exact (List.take_sublist ml _).sum_le_sum (fun a _ => Nat.zero_le a)
        have hcaplen := capLines_length_le (((splitNlCh t).map (perLine cpl)).take ml)
        have hcapsum := capLines_sum_le (((splitNlCh t).map (perLine cpl)).take ml)
        have hjlen := length_joinNl _ (capLines_ne_nil _ hkne)
        have hktake : (((splitNlCh t).map (perLine cpl)).take ml).length = ml := by
          rw [List.length_take]; omega
        rw [hktake] at hcaplen
        omega
    · have hL1ne : (splitNlCh t).map (perLine cpl) ≠ [] := by simpa using hLne
      have hjlen := length_joinNl _ hL1ne
      omega

theorem truncate_lines_pieces_le (t : List Char) (ml cpl : Nat)
    (hcpl : 3 ≤ cpl) :
    ∀ p ∈ splitNlCh (truncate_lines t ml (some cpl)), p.length ≤ cpl := by
  by_cases ht : t = []
  · intro p hp
    simp only [truncate_lines, ht, if_true, if_pos] at hp
    simp only [splitNlCh] at hp
    have : p = ([] : List Char) := by simpa using hp
    simp [this]
  · have hc : cpl ≠ 0 := by omega
    simp only [truncate_lines, if_neg ht, ne_eq, hc, not_false_eq_true, if_true]
    have hLne := splitNl_ne_nil t
    have hLfree := mem_splitNl_nlfree t
    have hL1free : ∀ p ∈ (splitNlCh t).map (perLine cpl), '\n' ∉ p := by
      intro p hp
      rw [List.mem_map] at hp
      obtain ⟨l, hl, hpl⟩ := hp
      rw [← hpl]
      exact perLine_nlfree cpl l (hLfree l hl)
    have hL1le : ∀ p ∈ (splitNlCh t).map (perLine cpl), p.length ≤ cpl := by
      intro p hp
      rw [List.mem_map] at hp
      obtain ⟨l, _, hpl⟩ := hp
      rw [← hpl]
      exact perLine_le_cpl cpl hcpl l
    split_ifs with hgt
    · by_cases hml : ml = 0
      · subst hml
        intro p hp
        simp only [List.take_zero, capLines_nil, joinNl, splitNlCh] at hp
        have : p = ([] : List Char) := by simpa using hp
        simp [this]
      · have hkne : ((splitNlCh t).map (perLine cpl)).take ml ≠ [] := by
          apply List.ne_nil_of_length_pos
          rw [List.length_take]
          have : 0 < ((splitNlCh t).map (perLine cpl)).length := by
            rw [List.length_map]
            exact List.length_pos.mpr hLne
          omega
        have hkfree : ∀ p ∈ ((splitNlCh t).map (perLine cpl)).take ml, '\n' ∉ p :=
          fun p hp => hL1free p (List.mem_of_mem_take hp)
        have hkle : ∀ p ∈ ((splitNlCh t).map (perLine cpl)).take ml, p.length ≤ cpl :=
          fun p hp => hL1le p (List.mem_of_mem_take hp)
        rw [splitNl_joinNl _ (capLines_ne_nil _ hkne) (capLines_nlfree _ hkfree)]
        exact capLines_pieces_le _ cpl hcpl hkle
    · have hL1ne : (splitNlCh t).map (perLine cpl) ≠ [] := by simpa using hLne
      rw [splitNl_joinNl _ hL1ne hL1free]
      exact hL1le

theorem truncate_lines_id (t : List Char) (ml cpl : Nat) (hc : cpl ≠ 0)
    (hpieces : ∀ p ∈ splitNlCh t, p.length ≤ cpl)
    (hcount : numLines t ≤ ml) :
    truncate_lines t ml (some cpl) = t := by
  by_cases ht : t = []
  · simp [truncate_lines, ht]
  · simp only [truncate_lines, if_neg ht, ne_eq, hc, not_false_eq_true, if_true]
    have hmap : (splitNlCh t).map (perLine cpl) = splitNlCh t := by
      have h1 : (splitNlCh t).map (perLine cpl) = (splitNlCh t).map id :=
        List.map_congr_left (fun l hl => perLine_of_fits cpl l (hpieces l hl))
      rw [h1, List.map_id]
    rw [hmap]
    unfold numLines at hcount
    rw [if_neg (by omega)]
    exact joinNl_splitNl t

/-! ### Helper lemmas: fit_text_to_shape -/

theorem fit_font_eq (text : List Char) (f : String) :
    (fit_text_to_shape text f false).2
      = fontFor ((fit_text_to_shape text f false).1).length (limitsOf f).2.2 := by
  by_cases ht : text = []
  · simp [fit_text_to_shape, ht, fontFor, FONT_SIZES]
  · simp only [fit_text_to_shape, if_neg ht, Bool.false_eq_true, if_false]

theorem fit_pieces_le (text : List Char) (f : String) :
    ∀ p ∈ splitNlCh ((fit_text_to_shape text f false).1),
      p.length ≤ (limitsOf f).1 := by
  by_cases ht : text = []
  · intro p hp
    simp only [fit_text_to_shape, ht, if_true, Bool.false_eq_true, if_false,
      splitNlCh] at hp
    have hp2 : p = ([] : List Char) := by simpa using hp
    simp [hp2]
  · simp only [fit_text_to_shape, if_neg ht, Bool.false_eq_true, if_false]
    exact truncate_lines_pieces_le _ _ _ (by have := limitsOf_bounds f; omega)

/-- C1 (corrected): for every input, field and prefix-newline flag, the
fitted text is at most three characters over the configured total budget
(four with the prefix newline); the overshoot comes from the extra '...'
line appended when lines were dropped and the last kept line is short. -/
theorem spec_c1_total_bound (text : List Char) (f : String) (pfx : Bool) :
    ((fit_text_to_shape text f pfx).1).length
      ≤ (limitsOf f).2.2 + 3 + (if pfx then 1 else 0) := by
  obtain ⟨hcpl, hml, htotal⟩ := limitsOf_bounds f
  by_cases ht : text = []
  · simp only [fit_text_to_shape, ht, if_true]
    cases pfx <;> (simp; try omega)
  · simp only [fit_text_to_shape, if_neg ht, gt_iff_lt]
    have h1 : (if (limitsOf f).2.2 < text.length
        then truncate_text text (limitsOf f).2.2 ellipsisChars else text).length
        ≤ (limitsOf f).2.2 := by
      split_ifs with hgt
      · have := truncate_text_length_of_gt text (limitsOf f).2.2 hgt
        omega
      · omega
    have h2 := truncate_lines_length_le
      (if (limitsOf f).2.2 < text.length
        then truncate_text text (limitsOf f).2.2 ellipsisChars else text)
      (limitsOf f).2.1 (limitsOf f).1 (by omega)
    cases pfx
    · simp only [Bool.false_eq_true, if_false]
      omega
    · simp only [if_true, List.length_cons]
      omega

set_option maxRecDepth 40000 in
/-- C1 counterexample: for the configured field 'made' (budget 200), the
199-character input cexFitText is fitted to a 202-character text, so the
fitted length exceeds the configured total budget. -/
theorem spec_c1_cex :
    TEXT_LIMITS "made" = some (50, 5, 200) ∧
    cexFitText.length = 199 ∧
    ¬ ((fit_text_to_shape cexFitText "made" false).1.length ≤ (limitsOf "made").2.2) := by
  decide

/-- C2 (corrected): truncate_lines (and hence fit_text_to_shape without the
prefix newline) returns at most max_lines + 1 newline-separated segments;
the extra segment is the '...' line appended when the last kept line has at
most three characters. -/
theorem spec_c2_line_cap :
    (∀ (t : List Char) (ml : Nat) (mc : Option Nat),
      numLines (truncate_lines t ml mc) ≤ ml + 1) ∧
    (∀ (text : List Char) (f : String),
      numLines ((fit_text_to_shape text f false).1) ≤ (limitsOf f).2.1 + 1) := by
  constructor
  · exact truncate_lines_numLines_le
  · intro text f
    by_cases ht : text = []
    · simp only [fit_text_to_shape, ht, if_true, Bool.false_eq_true, if_false]
      rw [numLines_nil]
      omega
    · simp only [fit_text_to_shape, if_neg ht, Bool.false_eq_true, if_false]
      exact truncate_lines_numLines_le _ _ _

/-- C2 counterexample: for the configured field 'title' (max_lines 1) the
two-line input is fitted to a text with two newline-separated segments, and
truncate_lines itself already produces two segments from a two-line input
with max_lines 1. -/
theorem spec_c2_cex :
    TEXT_LIMITS "title" = some (80, 1, 80) ∧
    numLines ((fit_text_to_shape ("ab\ncd".toList) "title" false).1) = 2 ∧
    numLines (truncate_lines ("ab\ncd".toList) 1 (some 80)) = 2 := by
  decide

theorem fit_fixpoint (r : List Char) (f : String) (hrne : r ≠ [])
    (hlen : r.length ≤ (limitsOf f).2.2)
    (hpieces : ∀ p ∈ splitNlCh r, p.length ≤ (limitsOf f).1)
    (hlines : numLines r ≤ (limitsOf f).2.1) :
    fit_text_to_shape r f false = (r, fontFor r.length (limitsOf f).2.2) := by
  obtain ⟨hcpl, hml, htotal⟩ := limitsOf_bounds f
  simp only [fit_text_to_shape, if_neg hrne, Bool.false_eq_true, if_false]
  rw [if_neg (by omega : ¬ r.length > (limitsOf f).2.2)]
  rw [truncate_lines_id r (limitsOf f).2.1 (limitsOf f).1 (by omega) hpieces hlines]

/-- C3 (corrected): fitting is idempotent whenever the fitted text is
within the configured total character budget and line budget; re-fitting
such an output changes nothing, font size included. -/
theorem spec_c3_idempotent (text : List Char) (f : String)
    (hlen : ((fit_text_to_shape text f false).1).length ≤ (limitsOf f).2.2)
    (hlines : numLines ((fit_text_to_shape text f false).1) ≤ (limitsOf f).2.1) :
    fit_text_to_shape ((fit_text_to_shape text f false).1) f false
      = fit_text_to_shape text f false := by
  obtain ⟨hcpl, hml, htotal⟩ := limitsOf_bounds f
  by_cases hr : (fit_text_to_shape text f false).1 = []
  · rw [hr]
    by_cases ht : text = []
    · rw [ht]
    · have hfont := fit_font_eq text f
      rw [hr] at hfont
      have hfz : fontFor (0 : Nat) (limitsOf f).2.2 = 9 := by
        simp [fontFor, FONT_SIZES]
      simp only [List.length_nil, hfz] at hfont
      have h1 : fit_text_to_shape ([] : List Char) f false = ([], 9) := by
        simp [fit_text_to_shape, FONT_SIZES]
      rw [h1]
      have h2 : fit_text_to_shape text f false
          = ((fit_text_to_shape text f false).1, (fit_text_to_shape text f false).2) := rfl
      rw [h2, hr, hfont]
  · have hfix := fit_fixpoint ((fit_text_to_shape text f false).1) f hr hlen
      (fit_pieces_le text f) hlines
    rw [hfix]
    have h2 : ((fit_text_to_shape text f false).1,
        fontFor (fit_text_to_shape text f false).1.length (limitsOf f).2.2)
        = fit_text_to_shape text f false := by
      rw [← fit_font_eq text f]
    exact h2

set_option maxRecDepth 40000 in
/-- C3 counterexample: re-fitting the 202-character fitted text of
cexFitText for the field 'made' yields a different (200-character) text, so
fitting is not idempotent as claimed. -/
theorem spec_c3_cex :
    fit_text_to_shape ((fit_text_to_shape cexFitText "made" false).1) "made" false
      ≠ fit_text_to_shape cexFitText "made" false := by
  decide

/-- C3 witness: a short text for the field 'made' satisfies both budget
hypotheses and re-fitting it is a no-op. -/
theorem spec_c3_witness :
    fit_text_to_shape ((fit_text_to_shape ("hello".toList) "made" false).1) "made" false
      = fit_text_to_shape ("hello".toList) "made" false :=
  spec_c3_idempotent ("hello".toList) "made" (by decide) (by decide)

/-- C10 (confirmed): truncate_text returns any input that already fits
unchanged (in particular no ellipsis is appended), and both the empty
string and a missing (None) input yield the empty string. -/
theorem spec_c10_identity :
    (∀ (t : List Char) (m : Nat), t.length ≤ m →
      truncate_text t m ellipsisChars = t) ∧
    (∀ m : Nat, truncate_text [] m ellipsisChars = []) ∧
    (∀ m : Nat, truncate_textO none m ellipsisChars = []) := by
  refine ⟨fun t m h => truncate_text_of_fits t m ellipsisChars h, ?_, ?_⟩
  · intro m
    exact truncate_text_of_fits [] m ellipsisChars (by simp)
  · intro m
    unfold truncate_textO
    exact truncate_text_of_fits [] m ellipsisChars (by simp)

/-- C10 witness: a three-character string within a budget of 5 is returned
unchanged. -/
theorem spec_c10_witness :
    truncate_text ("abc".toList) 5 ellipsisChars = "abc".toList :=
  spec_c10_identity.1 ("abc".toList) 5 (by decide)

/-! ### Helper lemmas: poll_generation -/

theorem pollLoop_attempts_le (responses : Nat → PollResponse) :
    ∀ (r a : Nat), (pollLoop responses a r).2 ≤ r := by
  intro r
  induction r with
  | zero => intro a; simp [pollLoop]
  | succ n ih =>
    intro a
    simp only [pollLoop]
    split_ifs <;> simp <;> exact ih (a + 1)

theorem pollLoop_timeout (responses : Nat → PollResponse)
    (h : ∀ n, (responses n).status ≠ "completed" ∧ (responses n).status ≠ "failed") :
    ∀ (r a : Nat), pollLoop responses a r = ((none, some timeout_message), r) := by
  intro r
  induction r with
  | zero => intro a; simp [pollLoop]
  | succ n ih =>
    intro a
    simp only [pollLoop]
    split_ifs with h1 h2 h3
    · exact absurd h2 (h a).1
    · exact absurd h3 (h a).2
    · rw [ih (a + 1)]
    · rw [ih (a + 1)]

/-- C9 (confirmed): the Gamma polling loop always performs at most
MAX_POLL_ATTEMPTS (60) attempts, and on any response sequence that is never
completed and never failed it stops after exactly 60 attempts and returns
the timeout error instead of polling forever. -/
theorem spec_c9_poll_bounded (responses : Nat → PollResponse) :
    (poll_generation responses).2 ≤ MAX_POLL_ATTEMPTS ∧
    ((∀ n, (responses n).status ≠ "completed" ∧ (responses n).status ≠ "failed") →
      poll_generation responses = ((none, some timeout_message), MAX_POLL_ATTEMPTS)) := by
  constructor
  · exact pollLoop_attempts_le responses MAX_POLL_ATTEMPTS 1
  · intro h
    exact pollLoop_timeout responses h MAX_POLL_ATTEMPTS 1

/-- C9 witness: on the constant pending response the loop returns the
timeout error after exactly 60 attempts. -/
theorem spec_c9_witness :
    poll_generation (fun _ => ⟨200, "pending", ""⟩)
      = ((none, some timeout_message), MAX_POLL_ATTEMPTS) :=
  (spec_c9_poll_bounded (fun _ => ⟨200, "pending", ""⟩)).2
    (fun _ => ⟨by decide, by decide⟩)

/-! ### Helper lemmas: the nearest-shape scan -/

theorem mergeOpt_assoc (a b c : Option (Shape × ℚ)) :
    mergeOpt (mergeOpt a b) c = mergeOpt a (mergeOpt b c) := by
  rcases a with _ | ⟨s, d⟩
  · simp [mergeOpt]
  · rcases b with _ | ⟨t, e⟩
    · simp [mergeOpt]
    · rcases c with _ | ⟨u, f⟩
      · simp only [mergeOpt]
        split_ifs <;> simp [mergeOpt]
      · simp only [mergeOpt]
        split_ifs with h1 h2 <;> simp only [mergeOpt] <;> split_ifs <;>
          first | rfl | (exfalso; linarith)

theorem scanBest_acc (pos : ℚ × ℚ) (used : List Nat) :
    ∀ (l : List Shape) (acc : Option (Shape × ℚ)),
      scanBest pos used acc l = mergeOpt acc (scanBest pos used none l) := by
  intro l
  induction l with
  | nil => intro acc; cases acc <;> simp [scanBest, mergeOpt]
  | cons s rest ih =>
    intro acc
    simp only [scanBest]
    by_cases hs : s.id ∈ used
    · rw [if_pos hs, if_pos hs, ih acc, ih none]
    · rw [if_neg hs, if_neg hs]
      have hupd : ∀ a : Option (Shape × ℚ),
          (match a with
           | none => some (s, sqDist (coords s) pos)
           | some (b, d) =>
             if sqDist (coords s) pos < d then some (s, sqDist (coords s) pos)
             else some (b, d))
          = mergeOpt a (some (s, sqDist (coords s) pos)) := by
        intro a
        rcases a with _ | ⟨b, d⟩ <;> simp [mergeOpt]
      rw [hupd acc, ih (mergeOpt acc (some (s, sqDist (coords s) pos))),
        ih (some (s, sqDist (coords s) pos))]
      exact mergeOpt_assoc acc (some (s, sqDist (coords s) pos))
        (scanBest pos used none rest)

theorem scanBest_eq_bestMin (pos : ℚ × ℚ) (used : List Nat) :
    ∀ l : List Shape, scanBest pos used none l = bestMin pos (availOf used l) := by
  intro l
  induction l with
  | nil => simp [scanBest, availOf, bestMin]
  | cons s rest ih =>
    simp only [scanBest]
    by_cases hs : s.id ∈ used
    · rw [if_pos hs]
      have havail : availOf used (s :: rest) = availOf used rest := by
        simp [availOf, List.filter_cons, hs]
      rw [havail, ih]
    · rw [if_neg hs]
      have havail : availOf used (s :: rest) = s :: availOf used rest := by
        simp [availOf, List.filter_cons, hs]
      rw [havail, scanBest_acc pos used rest (some (s, sqDist (coords s) pos)), ih]
      simp [bestMin]

theorem bestMin_eq_none (pos : ℚ × ℚ) (l : List Shape)
    (h : bestMin pos l = none) : l = [] := by
  cases l with
  | nil => rfl
  | cons s rest =>
    exfalso
    simp only [bestMin] at h
    cases hr : bestMin pos rest with
    | none =>
      rw [hr] at h
      simp [mergeOpt] at h
    | some te =>
      rcases te with ⟨t, e⟩
      rw [hr] at h
      simp only [mergeOpt] at h
      split_ifs at h <;> simp_all

theorem bestMin_spec (pos : ℚ × ℚ) :
    ∀ (l : List Shape) (b : Shape) (d : ℚ), bestMin pos l = some (b, d) →
      b ∈ l ∧ d = sqDist (coords b) pos ∧ ∀ t ∈ l, d ≤ sqDist (coords t) pos := by
  intro l
  induction l with
  | nil => intro b d h; simp [bestMin] at h
  | cons s rest ih =>
    intro b d h
    simp only [bestMin] at h
    cases hr : bestMin pos rest with
    | none =>
      have hrnil : rest = [] := bestMin_eq_none pos rest hr
      rw [hr] at h
      simp only [mergeOpt, Option.some.injEq, Prod.mk.injEq] at h
      obtain ⟨hb, hd⟩ := h
      subst hrnil
      refine ⟨by simp [← hb], by rw [← hb, ← hd], ?_⟩
      intro t ht
      have ht2 : t = s := by simpa using ht
      rw [ht2, ← hd]
    | some te =>
      rcases te with ⟨t, e⟩
      rw [hr] at h
      simp only [mergeOpt] at h
      obtain ⟨ht1, ht2, ht3⟩ := ih t e hr
      split_ifs at h with hlt
      · simp only [Option.some.injEq, Prod.mk.injEq] at h
        obtain ⟨hb, hd⟩ := h
        refine ⟨by simp [← hb, ht1], by rw [← hb, ← hd, ht2], ?_⟩
        intro u hu
        rw [List.mem_cons] at hu
        rcases hu with hu | hu
        · rw [hu, ← hd]
          linarith [hlt]
        · rw [← hd]
          exact ht3 u hu
      · simp only [Option.some.injEq, Prod.mk.injEq] at h
        obtain ⟨hb, hd⟩ := h
        refine ⟨by simp [← hb], by rw [← hb, ← hd], ?_⟩
        intro u hu
        rw [List.mem_cons] at hu
        rcases hu with hu | hu
        · rw [hu, ← hd]
        · rw [← hd]
          have h4 : e ≤ sqDist (coords u) pos := ht3 u hu
          linarith [not_lt.mp hlt]

theorem bestMin_isSome (pos : ℚ × ℚ) (l : List Shape) (h : l ≠ []) :
    ∃ b d, bestMin pos l = some (b, d) := by
  cases l with
  | nil => exact absurd rfl h
  | cons s rest =>
    simp only [bestMin]
    cases hr : bestMin pos rest with
    | none => exact ⟨s, sqDist (coords s) pos, by simp [mergeOpt]⟩
    | some te =>
      rcases te with ⟨t, e⟩
      simp only [mergeOpt]
      split_ifs
      · exact ⟨t, e, rfl⟩
      · exact ⟨s, sqDist (coords s) pos, rfl⟩

theorem mem_availOf (used : List Nat) (l : List Shape) (s : Shape) :
    s ∈ availOf used l ↔ s ∈ l ∧ s.id ∉ used := by
  simp [availOf, List.mem_filter]

theorem availOf_nil_used (l : List Shape) : availOf [] l = l := by
  simp [availOf]

theorem availOf_append (u : List Nat) (i : Nat) (l : List Shape) :
    availOf (u ++ [i]) l
      = (availOf u l).filter (fun s => decide (s.id ≠ i)) := by
  unfold availOf
  rw [List.filter_filter]
  apply List.filter_congr
  intro a _
  simp only [List.mem_append, List.mem_singleton, not_or, decide_not]
  cases h1 : decide (a.id = i) <;> cases h2 : decide (a.id ∈ u) <;>
    simp_all

/-! ### Helper lemmas: the verify_template matching loop -/

theorem matchStep_spec (shapes : List Shape) (st : MatchState) (f : String × ℚ × ℚ) :
    (∃ b d, bestMin f.2 (availOf st.used shapes) = some (b, d) ∧ d ≤ TOL2 ∧
      matchStep shapes st f
        = ⟨st.assigned ++ [(f.1, b)], st.used ++ [b.id], st.missing⟩) ∨
    (matchStep shapes st f = { st with missing := st.missing ++ [f.1] }) := by
  unfold matchStep
  rw [scanBest_eq_bestMin]
  cases hb : bestMin f.2 (availOf st.used shapes) with
  | none => right; rfl
  | some bd =>
    rcases bd with ⟨b, d⟩
    by_cases hd : d ≤ TOL2
    · left
      exact ⟨b, d, rfl, hd, by simp [hd]⟩
    · right
      simp [hd]

theorem runMatch_extends (shapes : List Shape) :
    ∀ (fields : List (String × ℚ × ℚ)) (st : MatchState),
      ∃ as ms, (fields.foldl (matchStep shapes) st).assigned = st.assigned ++ as ∧
        (fields.foldl (matchStep shapes) st).missing = st.missing ++ ms := by
  intro fields
  induction fields with
  | nil => intro st; exact ⟨[], [], by simp, by simp⟩
  | cons f fs ih =>
    intro st
    obtain ⟨as, ms, h1, h2⟩ := ih (matchStep shapes st f)
    rcases matchStep_spec shapes st f with ⟨b, d, _, _, heq⟩ | heq <;>
      rw [heq] at h1 h2
    · exact ⟨[(f.1, b)] ++ as, ms, by simp only [List.foldl_cons, heq, h1,
        List.append_assoc], by simp only [List.foldl_cons, heq, h2]⟩
    · exact ⟨as, [f.1] ++ ms, by simp only [List.foldl_cons, heq, h1],
        by simp only [List.foldl_cons, heq, h2, List.append_assoc]⟩

theorem runMatch_used_inv (shapes : List Shape) :
    ∀ (fields : List (String × ℚ × ℚ)) (st : MatchState),
      st.used = st.assigned.map (fun p => p.2.id) → st.used.Nodup →
      (fields.foldl (matchStep shapes) st).used
          = (fields.foldl (matchStep shapes) st).assigned.map (fun p => p.2.id) ∧
        (fields.foldl (matchStep shapes) st).used.Nodup := by
  intro fields
  induction fields with
  | nil => intro st h1 h2; exact ⟨h1, h2⟩
  | cons f fs ih =>
    intro st h1 h2
    simp only [List.foldl_cons]
    rcases matchStep_spec shapes st f with ⟨b, d, hbm, _, heq⟩ | heq
    · have hmem : b ∈ availOf st.used shapes := (bestMin_spec f.2 _ b d hbm).1
      have hnotused : b.id ∉ st.used := ((mem_availOf _ _ b).mp hmem).2
      apply ih
      · rw [heq]
        simp [h1]
      · rw [heq]
        simp only [List.nodup_append, List.nodup_cons, List.nodup_nil]
        refine ⟨h2, by simp, ?_⟩
        intro a ha
        simp only [List.mem_singleton]
        intro hai
        rw [hai] at ha
        exact hnotused ha
    · apply ih
      · rw [heq]; exact h1
      · rw [heq]; exact h2

/-- C4 (corrected, proved part): the verify_template matching loop binds
each shape to at most one field: the shapes recorded in the assignment are
pairwise distinct, for every field list and every shape list. -/
theorem spec_c4_at_most_one_field (fields : List (String × ℚ × ℚ))
    (shapes : List Shape) :
    ((runMatch fields shapes).assigned.map (fun p => p.2.id)).Nodup := by
  have h := runMatch_used_inv shapes fields ⟨[], [], []⟩ rfl (by simp)
  unfold runMatch
  rw [← h.1]
  exact h.2

/-- C4 counterexample: find_shape_by_pos performs independent lookups with
no exclusion of already-used shapes, so two distinct populate_project_slide
fields (trends and next_steps) are bound to one and the same shape. -/
theorem spec_c4_cex :
    ("trends", (39:ℚ)/100, (432:ℚ)/100) ∈ POPULATE_POSITIONS ∧
    ("next_steps", (39:ℚ)/100, (453:ℚ)/100) ∈ POPULATE_POSITIONS ∧
    ("trends" : String) ≠ "next_steps" ∧
    find_shape_by_pos cexShapeMap (39/100, 432/100) FIND_TOL2 = some 0 ∧
    find_shape_by_pos cexShapeMap (39/100, 453/100) FIND_TOL2 = some 0 := by
  refine ⟨by simp [POPULATE_POSITIONS], by simp [POPULATE_POSITIONS],
    by decide, ?_, ?_⟩ <;>
    norm_num [find_shape_by_pos, findShapeAux, cexShapeMap, sqDist, FIND_TOL2]

theorem runMatch_used_sound (shapes : List Shape) :
    ∀ (fields : List (String × ℚ × ℚ)) (st : MatchState),
      ∀ i ∈ (fields.foldl (matchStep shapes) st).used,
        i ∈ st.used ∨ ∃ t ∈ shapes, t.id = i ∧
          ∃ f ∈ fields, sqDist (coords t) f.2 ≤ TOL2 := by
  intro fields
  induction fields with
  | nil => intro st i hi; exact Or.inl hi
  | cons f fs ih =>
    intro st i hi
    simp only [List.foldl_cons] at hi
    rcases ih (matchStep shapes st f) i hi with hmem | ⟨t, ht, hid, f', hf', hle⟩
    · rcases matchStep_spec shapes st f with ⟨b, d, hbm, hdle, heq⟩ | heq
      · rw [heq] at hmem
        simp only [List.mem_append, List.mem_singleton] at hmem
        rcases hmem with hmem | hmem
        · exact Or.inl hmem
        · obtain ⟨hbmem, hbd, _⟩ := bestMin_spec f.2 _ b d hbm
          refine Or.inr ⟨b, ((mem_availOf _ _ b).mp hbmem).1, hmem.symm,
            f, by simp, ?_⟩
          rw [← hbd]
          exact hdle
      · rw [heq] at hmem
        exact Or.inl hmem
    · exact Or.inr ⟨t, ht, hid, f', by simp [hf'], hle⟩

theorem runMatch_assigned_sound (shapes : List Shape) :
    ∀ (fields : List (String × ℚ × ℚ)) (st : MatchState),
      ∀ p ∈ (fields.foldl (matchStep shapes) st).assigned,
        p ∈ st.assigned ∨ ∃ f ∈ fields, p.1 = f.1 ∧
          sqDist (coords p.2) f.2 ≤ TOL2 := by
  intro fields
  induction fields with
  | nil => intro st p hp; exact Or.inl hp
  | cons f fs ih =>
    intro st p hp
    simp only [List.foldl_cons] at hp
    rcases ih (matchStep shapes st f) p hp with hmem | ⟨f', hf', h1, h2⟩
    · rcases matchStep_spec shapes st f with ⟨b, d, hbm, hdle, heq⟩ | heq
      · rw [heq] at hmem
        simp only [List.mem_append, List.mem_singleton] at hmem
        rcases hmem with hmem | hmem
        · exact Or.inl hmem
        · obtain ⟨hbmem, hbd, _⟩ := bestMin_spec f.2 _ b d hbm
          refine Or.inr ⟨f, by simp, by rw [hmem], ?_⟩
          rw [hmem]
          rw [← hbd]
          exact hdle
      · rw [heq] at hmem
        exact Or.inl hmem
    · exact Or.inr ⟨f', by simp [hf'], h1, h2⟩

theorem runMatch_covered (shapes : List Shape) :
    ∀ (fields : List (String × ℚ × ℚ)) (st : MatchState),
      ∀ f ∈ fields,
        (∃ p ∈ (fields.foldl (matchStep shapes) st).assigned, p.1 = f.1)
          ∨ f.1 ∈ (fields.foldl (matchStep shapes) st).missing := by
  intro fields
  induction fields with
  | nil => intro st f hf; simp at hf
  | cons g gs ih =>
    intro st f hf
    rw [List.mem_cons] at hf
    simp only [List.foldl_cons]
    rcases hf with hf | hf
    · obtain ⟨as, ms, h1, h2⟩ := runMatch_extends shapes gs (matchStep shapes st g)
      rcases matchStep_spec shapes st g with ⟨b, d, hbm, hdle, heq⟩ | heq
      · left
        refine ⟨(g.1, b), ?_, by rw [hf]⟩
        rw [h1, heq]
        simp
      · right
        rw [h2, heq, hf]
        simp
    · exact ih (matchStep shapes st g) f hf

/-- C6 (confirmed): (1) a shape farther than the tolerance from every
expected field position is never bound and ends in the new_shapes report;
(2) every binding made by the matching loop is within tolerance of its
field, so no field is force-matched; (3) every field is either bound or
reported missing; (4) find_shape_by_pos only ever returns a shape within
its tolerance of the target. -/
theorem spec_c6_tolerance (fields : List (String × ℚ × ℚ)) (shapes : List Shape) :
    (∀ s : Shape, (shapes.map Shape.id).Nodup → s ∈ shapes →
      (∀ f ∈ fields, ¬ sqDist (coords s) f.2 ≤ TOL2) →
      s ∈ newShapesOf (runMatch fields shapes) shapes) ∧
    (∀ p ∈ (runMatch fields shapes).assigned,
      ∃ f ∈ fields, p.1 = f.1 ∧ sqDist (coords p.2) f.2 ≤ TOL2) ∧
    (∀ f ∈ fields,
      (∃ p ∈ (runMatch fields shapes).assigned, p.1 = f.1)
        ∨ f.1 ∈ (runMatch fields shapes).missing) ∧
    (∀ (m : List ((ℚ × ℚ) × Nat)) (target : ℚ × ℚ) (tol2 : ℚ) (i : Nat),
      find_shape_by_pos m target tol2 = some i →
      ∃ e ∈ m, e.2 = i ∧ sqDist e.1 target ≤ tol2) := by
  refine ⟨?_, ?_, ?_, ?_⟩
  · intro s hnodup hs hfar
    rw [newShapesOf, List.mem_filter]
    refine ⟨hs, ?_⟩
    rw [decide_eq_true_eq]
    intro hused
    rcases runMatch_used_sound shapes fields ⟨[], [], []⟩ s.id hused with h | h
    · simp at h
    · obtain ⟨t, ht, hid, f, hf, hle⟩ := h
      have : t = s := List.inj_on_of_nodup_map hnodup ht hs hid
      rw [this] at hle
      exact hfar f hf hle
  · intro p hp
    rcases runMatch_assigned_sound shapes fields ⟨[], [], []⟩ p hp with h | h
    · simp at h
    · exact h
  · intro f hf
    exact runMatch_covered shapes fields ⟨[], [], []⟩ f hf
  · intro m target tol2 i h
    unfold find_shape_by_pos at h
    cases hfa : findShapeAux target tol2 none m with
    | none => rw [hfa] at h; simp at h
    | some p =>
      rcases p with ⟨j, d⟩
      rw [hfa] at h
      simp only [Option.map_some', Option.some.injEq] at h
      have hsound : ∀ (mm : List ((ℚ × ℚ) × Nat)) (acc : Option (Nat × ℚ))
          (jj : Nat) (dd : ℚ), findShapeAux target tol2 acc mm = some (jj, dd) →
          acc = some (jj, dd) ∨
            ∃ e ∈ mm, e.2 = jj ∧ dd = sqDist e.1 target ∧ dd ≤ tol2 := by
        intro mm
        induction mm with
        | nil => intro acc jj dd hh; exact Or.inl hh
        | cons e rest ihm =>
          intro acc jj dd hh
          simp only [findShapeAux] at hh
          rcases ihm _ jj dd hh with hacc | ⟨e', he', h1, h2, h3⟩
          · split_ifs at hacc with hc
            · simp only [Option.some.injEq, Prod.mk.injEq] at hacc
              rw [Bool.and_eq_true] at hc
              obtain ⟨hc1, _⟩ := hc
              exact Or.inr ⟨e, by simp, hacc.1, hacc.2.symm,
                by rw [← hacc.2]; exact of_decide_eq_true hc1⟩
            · exact Or.inl hacc
          · exact Or.inr ⟨e', by simp [he'], h1, h2, h3⟩
      rcases hsound m none j d hfa with hacc | ⟨e, he, h1, h2, h3⟩
      · simp at hacc
      · exact ⟨e, he, by rw [h1, h], by rw [← h2]; exact h3⟩

/-- C6 witness: a single shape at (1, 1), far from the single expected
position (0, 0), ends up in the new_shapes report. -/
theorem spec_c6_witness :
    (⟨0, 1, 1⟩ : Shape) ∈ newShapesOf (runMatch [("f", 0, 0)] [⟨0, 1, 1⟩]) [⟨0, 1, 1⟩] :=
  (spec_c6_tolerance [("f", 0, 0)] [⟨0, 1, 1⟩]).1 ⟨0, 1, 1⟩ (by simp) (by simp)
    (by
      intro f hf
      have hf2 : f = ("f", (0:ℚ), (0:ℚ)) := by simpa using hf
      rw [hf2]
      norm_num [sqDist, coords, TOL2, POSITION_TOLERANCE])

/-- C5 counterexample: the greedy nearest-shape matching is not
order-independent.  With one expected field and two shapes equidistant from
it, permuting the shape list changes which shape is bound; and with two
fields competing for one shape, changing the field enumeration order
changes which field is reported missing. -/
theorem spec_c5_cex :
    List.Perm [(⟨0, 1/10, 0⟩ : Shape), ⟨1, 0, 1/10⟩] [⟨1, 0, 1/10⟩, ⟨0, 1/10, 0⟩] ∧
    (runMatch [("f", 0, 0)] [(⟨0, 1/10, 0⟩ : Shape), ⟨1, 0, 1/10⟩]).assigned.map
        (fun p => (p.1, coords p.2))
      ≠ (runMatch [("f", 0, 0)] [(⟨1, 0, 1/10⟩ : Shape), ⟨0, 1/10, 0⟩]).assigned.map
        (fun p => (p.1, coords p.2)) ∧
    (runMatch [("F1", 0, 0), ("F2", 1/5, 0)] [(⟨0, 1/10, 0⟩ : Shape)]).missing
      ≠ (runMatch [("F2", 1/5, 0), ("F1", 0, 0)] [(⟨0, 1/10, 0⟩ : Shape)]).missing := by
  refine ⟨List.Perm.swap _ _ _, ?_, ?_⟩
  · norm_num [runMatch, matchStep, scanBest, sqDist, coords, TOL2,
      POSITION_TOLERANCE, mergeOpt]
  · norm_num [runMatch, matchStep, scanBest, sqDist, coords, TOL2,
      POSITION_TOLERANCE, mergeOpt]
    decide

theorem filter_id_erase_multiset :
    ∀ (L : List Shape), (L.map Shape.id).Nodup → ∀ b ∈ L,
      ((((L.filter (fun s => decide (s.id ≠ b.id))).map coords) : List (ℚ × ℚ))
        : Multiset (ℚ × ℚ))
        = (((L.map coords) : List (ℚ × ℚ)) : Multiset (ℚ × ℚ)).erase (coords b) := by
  intro L
  induction L with
  | nil => intro _ b hb; simp at hb
  | cons a L' ih =>
    intro hnodup b hb
    rw [List.map_cons, List.nodup_cons] at hnodup
    obtain ⟨haid, hnodup'⟩ := hnodup
    rcases List.mem_cons.mp hb with hba | hbl
    · subst hba
      have h1 : List.filter (fun s => decide (s.id ≠ b.id)) L' = L' :=
        List.filter_eq_self.mpr (fun s hs =>
          decide_eq_true (fun heq => haid (heq ▸ List.mem_map_of_mem Shape.id hs)))
      have h2 : List.filter (fun s => decide (s.id ≠ b.id)) (b :: L') = L' := by
        rw [List.filter_cons,
          if_neg (show ¬ (decide (b.id ≠ b.id) = true) by simp)]
        exact h1
      rw [h2, List.map_cons, ← Multiset.cons_coe, Multiset.erase_cons_head]
    · have haid2 : a.id ≠ b.id := fun heq =>
        haid (heq ▸ List.mem_map_of_mem Shape.id hbl)
      have h2 : List.filter (fun s => decide (s.id ≠ b.id)) (a :: L')
          = a :: List.filter (fun s => decide (s.id ≠ b.id)) L' := by
        rw [List.filter_cons]
        simp [haid2]
      rw [h2, List.map_cons, List.map_cons, ← Multiset.cons_coe, ← Multiset.cons_coe,
        ih hnodup' b hbl]
      by_cases hc : coords a = coords b
      · rw [hc, Multiset.erase_cons_head]
        exact Multiset.cons_erase
          (Multiset.mem_coe.mpr (List.mem_map_of_mem coords hbl))
      · rw [Multiset.erase_cons_tail _ hc]

theorem matchStep_bisim (l1 l2 : List Shape) (f : String × ℚ × ℚ)
    (hperm : l1.Perm l2)
    (hid1 : (l1.map Shape.id).Nodup) (hid2 : (l2.map Shape.id).Nodup)
    (hties : ∀ s ∈ l1, ∀ t ∈ l1, coords s ≠ coords t →
      sqDist (coords s) f.2 ≠ sqDist (coords t) f.2)
    (st1 st2 : MatchState)
    (hass : st1.assigned.map (fun p => (p.1, coords p.2))
      = st2.assigned.map (fun p => (p.1, coords p.2)))
    (hmiss : st1.missing = st2.missing)
    (hA : ((((availOf st1.used l1).map coords) : List (ℚ × ℚ)) : Multiset (ℚ × ℚ))
      = (((availOf st2.used l2).map coords : List (ℚ × ℚ)) : Multiset (ℚ × ℚ))) :
    ((matchStep l1 st1 f).assigned.map (fun p => (p.1, coords p.2))
      = (matchStep l2 st2 f).assigned.map (fun p => (p.1, coords p.2))) ∧
    (matchStep l1 st1 f).missing = (matchStep l2 st2 f).missing ∧
    ((((availOf (matchStep l1 st1 f).used l1).map coords) : List (ℚ × ℚ))
        : Multiset (ℚ × ℚ))
      = (((availOf (matchStep l2 st2 f).used l2).map coords : List (ℚ × ℚ))
        : Multiset (ℚ × ℚ)) := by
  cases hbm1 : bestMin f.2 (availOf st1.used l1) with
  | none =>
    have hE1 : availOf st1.used l1 = [] := bestMin_eq_none _ _ hbm1
    have hE2 : availOf st2.used l2 = [] := by
      have h := hA
      rw [hE1] at h
      simp only [List.map_nil, Multiset.coe_nil] at h
      have h2 := (Multiset.coe_eq_zero _).mp h.symm
      rwa [List.map_eq_nil] at h2
    have heq1 : matchStep l1 st1 f = { st1 with missing := st1.missing ++ [f.1] } := by
      unfold matchStep
      rw [scanBest_eq_bestMin, hbm1]
    have heq2 : matchStep l2 st2 f = { st2 with missing := st2.missing ++ [f.1] } := by
      unfold matchStep
      rw [scanBest_eq_bestMin, hE2]
      rfl
    rw [heq1, heq2]
    exact ⟨hass, by simp [hmiss], hA⟩
  | some bd1 =>
    rcases bd1 with ⟨b1, d1⟩
    obtain ⟨hb1mem, hb1d, hb1min⟩ := bestMin_spec f.2 _ b1 d1 hbm1
    have hA2ne : availOf st2.used l2 ≠ [] := by
      intro h
      have h2 := hA
      rw [h] at h2
      simp only [List.map_nil, Multiset.coe_nil] at h2
      have h3 := (Multiset.coe_eq_zero _).mp h2
      have h4 := List.mem_map_of_mem coords hb1mem
      rw [h3] at h4
      simp at h4
    obtain ⟨b2, d2, hbm2⟩ := bestMin_isSome f.2 _ hA2ne
    obtain ⟨hb2mem, hb2d, hb2min⟩ := bestMin_spec f.2 _ b2 d2 hbm2
    have htrans12 : ∀ u ∈ availOf st2.used l2,
        ∃ v ∈ availOf st1.used l1, coords v = coords u := by
      intro u hu
      have h1 : coords u ∈ (availOf st1.used l1).map coords := by
        rw [← Multiset.mem_coe, hA, Multiset.mem_coe]
        exact List.mem_map_of_mem coords hu
      rwa [List.mem_map] at h1
    have htrans21 : ∀ u ∈ availOf st1.used l1,
        ∃ v ∈ availOf st2.used l2, coords v = coords u := by
      intro u hu
      have h1 : coords u ∈ (availOf st2.used l2).map coords := by
        rw [← Multiset.mem_coe, ← hA, Multiset.mem_coe]
        exact List.mem_map_of_mem coords hu
      rwa [List.mem_map] at h1
    have hd12 : d1 ≤ d2 := by
      obtain ⟨v, hv, hvc⟩ := htrans12 b2 hb2mem
      have h1 := hb1min v hv
      rw [hvc, ← hb2d] at h1
      exact h1
    have hd21 : d2 ≤ d1 := by
      obtain ⟨v, hv, hvc⟩ := htrans21 b1 hb1mem
      have h1 := hb2min v hv
      rw [hvc, ← hb1d] at h1
      exact h1
    have hdd : d1 = d2 := le_antisymm hd12 hd21
    have hcc : coords b1 = coords b2 := by
      by_contra hne
      have h1l : b1 ∈ l1 := ((mem_availOf _ _ _).mp hb1mem).1
      have h2l : b2 ∈ l1 := (hperm.mem_iff).mpr ((mem_availOf _ _ _).mp hb2mem).1
      exact hties b1 h1l b2 h2l hne (by rw [← hb1d, ← hb2d, hdd])
    have hsub1 : ((availOf st1.used l1).map Shape.id).Nodup :=
      ((List.filter_sublist l1).map Shape.id).nodup hid1
    have hsub2 : ((availOf st2.used l2).map Shape.id).Nodup :=
      ((List.filter_sublist l2).map Shape.id).nodup hid2
    by_cases hd1le : d1 ≤ TOL2
    · have hd2le : d2 ≤ TOL2 := by rw [← hdd]; exact hd1le
      have heq1 : matchStep l1 st1 f
          = ⟨st1.assigned ++ [(f.1, b1)], st1.used ++ [b1.id], st1.missing⟩ := by
        unfold matchStep
        rw [scanBest_eq_bestMin, hbm1]
        simp [hd1le]
      have heq2 : matchStep l2 st2 f
          = ⟨st2.assigned ++ [(f.1, b2)], st2.used ++ [b2.id], st2.missing⟩ := by
        unfold matchStep
        rw [scanBest_eq_bestMin, hbm2]
        simp [hd2le]
      rw [heq1, heq2]
      refine ⟨by simp [List.map_append, hass, hcc], hmiss, ?_⟩
      have p1 := filter_id_erase_multiset (availOf st1.used l1) hsub1 b1 hb1mem
      have p2 := filter_id_erase_multiset (availOf st2.used l2) hsub2 b2 hb2mem
      show ((((availOf (st1.used ++ [b1.id]) l1).map coords) : List (ℚ × ℚ))
          : Multiset (ℚ × ℚ))
        = (((availOf (st2.used ++ [b2.id]) l2).map coords : List (ℚ × ℚ))
          : Multiset (ℚ × ℚ))
      rw [availOf_append, availOf_append, p1, p2, hA, hcc]
    · have hd2le : ¬ d2 ≤ TOL2 := by rw [← hdd]; exact hd1le
      have heq1 : matchStep l1 st1 f = { st1 with missing := st1.missing ++ [f.1] } := by
        unfold matchStep
        rw [scanBest_eq_bestMin, hbm1]
        simp [hd1le]
      have heq2 : matchStep l2 st2 f = { st2 with missing := st2.missing ++ [f.1] } := by
        unfold matchStep
        rw [scanBest_eq_bestMin, hbm2]
        simp [hd2le]
      rw [heq1, heq2]
      exact ⟨hass, by simp [hmiss], hA⟩

theorem runMatch_bisim (l1 l2 : List Shape)
    (hperm : l1.Perm l2)
    (hid1 : (l1.map Shape.id).Nodup) (hid2 : (l2.map Shape.id).Nodup) :
    ∀ (fields : List (String × ℚ × ℚ)) (st1 st2 : MatchState),
      (∀ f ∈ fields, ∀ s ∈ l1, ∀ t ∈ l1, coords s ≠ coords t →
        sqDist (coords s) f.2 ≠ sqDist (coords t) f.2) →
      st1.assigned.map (fun p => (p.1, coords p.2))
        = st2.assigned.map (fun p => (p.1, coords p.2)) →
      st1.missing = st2.missing →
      ((((availOf st1.used l1).map coords) : List (ℚ × ℚ)) : Multiset (ℚ × ℚ))
        = (((availOf st2.used l2).map coords : List (ℚ × ℚ)) : Multiset (ℚ × ℚ)) →
      (fields.foldl (matchStep l1) st1).assigned.map (fun p => (p.1, coords p.2))
          = (fields.foldl (matchStep l2) st2).assigned.map (fun p => (p.1, coords p.2)) ∧
        (fields.foldl (matchStep l1) st1).missing
          = (fields.foldl (matchStep l2) st2).missing := by
  intro fields
  induction fields with
  | nil => intro st1 st2 _ hass hmiss _; exact ⟨hass, hmiss⟩
  | cons f fs ih =>
    intro st1 st2 hties hass hmiss hA
    obtain ⟨h1, h2, h3⟩ := matchStep_bisim l1 l2 f hperm hid1 hid2
      (hties f (by simp)) st1 st2 hass hmiss hA
    simp only [List.foldl_cons]
    exact ih (matchStep l1 st1 f) (matchStep l2 st2 f)
      (fun g hg => hties g (by simp [hg])) h1 h2 h3

/-- C5 (corrected): for a fixed enumeration order of the expected fields,
and provided no two shapes with different coordinates are equidistant from
any field position, the matching computes the same field-to-coordinate
assignment and the same missing report on any permutation of the shape
list.  Without the no-tie proviso, and for permuted field orders, the
result can differ (see the counterexample). -/
theorem spec_c5_stable (fields : List (String × ℚ × ℚ)) (l1 l2 : List Shape)
    (hperm : l1.Perm l2)
    (hid1 : (l1.map Shape.id).Nodup) (hid2 : (l2.map Shape.id).Nodup)
    (hties : ∀ f ∈ fields, ∀ s ∈ l1, ∀ t ∈ l1, coords s ≠ coords t →
      sqDist (coords s) f.2 ≠ sqDist (coords t) f.2) :
    (runMatch fields l1).assigned.map (fun p => (p.1, coords p.2))
      = (runMatch fields l2).assigned.map (fun p => (p.1, coords p.2)) ∧
    (runMatch fields l1).missing = (runMatch fields l2).missing := by
  apply runMatch_bisim l1 l2 hperm hid1 hid2 fields ⟨[], [], []⟩ ⟨[], [], []⟩ hties
    rfl rfl
  show ((((availOf [] l1).map coords) : List (ℚ × ℚ)) : Multiset (ℚ × ℚ))
    = (((availOf [] l2).map coords : List (ℚ × ℚ)) : Multiset (ℚ × ℚ))
  rw [availOf_nil_used, availOf_nil_used]
  exact Multiset.coe_eq_coe.mpr (hperm.map coords)

/-- C5 witness: on two tie-free shapes listed in either order, the matching
binds the field to the same coordinates and reports the same missing
fields. -/
theorem spec_c5_witness :
    (runMatch [("f", 0, 0)] [(⟨0, 1/10, 0⟩ : Shape), ⟨1, 1, 0⟩]).assigned.map
        (fun p => (p.1, coords p.2))
      = (runMatch [("f", 0, 0)] [(⟨1, 1, 0⟩ : Shape), ⟨0, 1/10, 0⟩]).assigned.map
        (fun p => (p.1, coords p.2)) ∧
    (runMatch [("f", 0, 0)] [(⟨0, 1/10, 0⟩ : Shape), ⟨1, 1, 0⟩]).missing
      = (runMatch [("f", 0, 0)] [(⟨1, 1, 0⟩ : Shape), ⟨0, 1/10, 0⟩]).missing :=
  spec_c5_stable [("f", 0, 0)] [⟨0, 1/10, 0⟩, ⟨1, 1, 0⟩] [⟨1, 1, 0⟩, ⟨0, 1/10, 0⟩]
    (List.Perm.swap _ _ _) (by simp) (by simp)
    (by
      intro f hf s hs t ht hne
      have hf2 : f = ("f", (0:ℚ), (0:ℚ)) := by simpa using hf
      subst hf2
      have hs2 : s = (⟨0, 1/10, 0⟩ : Shape) ∨ s = ⟨1, 1, 0⟩ := by simpa using hs
      have ht2 : t = (⟨0, 1/10, 0⟩ : Shape) ∨ t = ⟨1, 1, 0⟩ := by simpa using ht
      rcases hs2 with hs2 | hs2 <;> rcases ht2 with ht2 | ht2 <;>
        subst hs2 <;> subst ht2
      · exact absurd rfl hne
      · norm_num [sqDist, coords]
      · norm_num [sqDist, coords]
      · exact absurd rfl hne)

/-! ### Helper lemmas: coordinate rounding and the shape indexes -/

theorem dictInsert_keys (m : List ((ℚ × ℚ) × Nat)) (k : ℚ × ℚ) (v : Nat)
    (q : ℚ × ℚ) :
    (∃ e ∈ dictInsert m k v, e.1 = q) ↔ (q = k ∨ ∃ e ∈ m, e.1 = q) := by
  unfold dictInsert
  split_ifs with hany
  · constructor
    · rintro ⟨e', he', hk⟩
      rw [List.mem_map] at he'
      obtain ⟨e, he, hee⟩ := he'
      by_cases hek : e.1 = k
      · rw [if_pos hek] at hee
        left
        rw [← hk, ← hee]
      · rw [if_neg hek] at hee
        right
        exact ⟨e, he, by rw [← hee] at hk; exact hk⟩
    · rintro (hq | ⟨e, he, hk⟩)
      · rw [List.any_eq_true] at hany
        obtain ⟨e0, he0, hk0⟩ := hany
        rw [decide_eq_true_eq] at hk0
        refine ⟨(k, v), ?_, by rw [hq]⟩
        rw [List.mem_map]
        exact ⟨e0, he0, by rw [if_pos hk0]⟩
      · by_cases hek : e.1 = k
        · rw [List.any_eq_true] at hany
          obtain ⟨e0, he0, hk0⟩ := hany
          rw [decide_eq_true_eq] at hk0
          refine ⟨(k, v), ?_, by rw [← hk, hek]⟩
          rw [List.mem_map]
          exact ⟨e0, he0, by rw [if_pos hk0]⟩
        · refine ⟨e, ?_, hk⟩
          rw [List.mem_map]
          exact ⟨e, he, by rw [if_neg hek]⟩
  · constructor
    · rintro ⟨e, he, hk⟩
      rw [List.mem_append] at he
      rcases he with he | he
      · exact Or.inr ⟨e, he, hk⟩
      · have he2 : e = (k, v) := by simpa using he
        left
        rw [← hk, he2]
    · rintro (hq | ⟨e, he, hk⟩)
      · exact ⟨(k, v), by simp, hq.symm⟩
      · exact ⟨e, by simp [he], hk⟩

theorem buildShapeMap_keys_aux (q : ℚ × ℚ) :
    ∀ (l : List (Nat × (ℚ × ℚ))) (m0 : List ((ℚ × ℚ) × Nat)),
      (∃ e ∈ l.foldl
        (fun m p => dictInsert m (pyRound 1 p.2.1, pyRound 1 p.2.2) p.1) m0,
        e.1 = q)
      ↔ ((∃ e ∈ m0, e.1 = q) ∨
          ∃ r ∈ l, q = (pyRound 1 r.2.1, pyRound 1 r.2.2)) := by
  intro l
  induction l with
  | nil => intro m0; simp
  | cons p rest ih =>
    intro m0
    simp only [List.foldl_cons]
    rw [ih]
    rw [dictInsert_keys]
    constructor
    · rintro ((hq | h) | ⟨r, hr, hq⟩)
      · exact Or.inr ⟨p, by simp, hq⟩
      · exact Or.inl h
      · exact Or.inr ⟨r, by simp [hr], hq⟩
    · rintro (h | ⟨r, hr, hq⟩)
      · exact Or.inl (Or.inr h)
      · rw [List.mem_cons] at hr
        rcases hr with hr | hr
        · exact Or.inl (Or.inl (by rw [hr] at hq; exact hq))
        · exact Or.inr ⟨r, hr, hq⟩

/-- C7 (corrected): the slide-population pass indexes each shape's top-left
coordinate rounded to ONE decimal place, but the template-verification pass
records coordinates rounded to TWO decimal places. -/
theorem spec_c7_rounding (raw : List (ℚ × ℚ)) :
    (buildShapePositions raw).map coords
      = raw.map (fun r => (pyRound 2 r.1, pyRound 2 r.2)) ∧
    (∀ q : ℚ × ℚ, (∃ e ∈ buildShapeMap raw, e.1 = q)
      ↔ ∃ r ∈ raw, q = (pyRound 1 r.1, pyRound 1 r.2)) := by
  constructor
  · unfold buildShapePositions
    rw [List.map_map]
    have h1 : (coords ∘ fun p : Nat × (ℚ × ℚ) =>
        (⟨p.1, pyRound 2 p.2.1, pyRound 2 p.2.2⟩ : Shape))
        = (fun r : ℚ × ℚ => (pyRound 2 r.1, pyRound 2 r.2)) ∘ Prod.snd := rfl
    rw [h1, ← List.map_map, List.enum_map_snd]
  · intro q
    unfold buildShapeMap
    rw [buildShapeMap_keys_aux]
    simp only [List.mem_nil_iff, false_and, exists_false, false_or]
    constructor
    · rintro ⟨r, hr, hq⟩
      have h2 : r.2 ∈ raw := by
        rw [← List.enum_map_snd raw]
        exact List.mem_map_of_mem Prod.snd hr
      exact ⟨r.2, h2, hq⟩
    · rintro ⟨r, hr, hq⟩
      rw [← List.enum_map_snd raw, List.mem_map] at hr
      obtain ⟨p, hp, hpr⟩ := hr
      exact ⟨p, hp, by rw [hpr]; exact hq⟩

/-- C7 counterexample: a shape whose raw left coordinate is 0.17 inches is
indexed by verify_template at 0.17 (two decimals), which differs from the
one-decimal rounding 0.2 the claim asserts for both passes. -/
theorem spec_c7_cex :
    buildShapePositions [((17:ℚ)/100, 0)] = [⟨0, 17/100, 0⟩] ∧
    pyRound 1 ((17:ℚ)/100) = 1/5 ∧
    ((17:ℚ)/100) ≠ 1/5 := by
  refine ⟨?_, ?_, by norm_num⟩
  · unfold buildShapePositions
    simp only [List.enum, List.enumFrom, List.map_cons, List.map_nil]
    have h1 : pyRound 2 ((17:ℚ)/100) = 17/100 := by
      unfold pyRound pyRoundHalfEven
      norm_num
    have h2 : pyRound 2 (0:ℚ) = 0 := by
      unfold pyRound pyRoundHalfEven
      norm_num
    rw [h1, h2]
  · unfold pyRound pyRoundHalfEven
    norm_num

/-- The half-even mantissa rounding moves N by at most half a unit in the
last kept place: the two-sided error bound of one IEEE-754 rounding. -/
theorem roundMantissa_bounds (N sh : Nat) (hsh : 1 ≤ sh) :
    (N : ℚ) - 2 ^ (sh - 1) ≤ (roundMantissa N sh : ℚ) * 2 ^ sh ∧
    (roundMantissa N sh : ℚ) * 2 ^ sh ≤ (N : ℚ) + 2 ^ (sh - 1) := by
  have hdm : ((2 : ℚ) ^ sh) * ((N / 2 ^ sh : Nat) : ℚ) + ((N % 2 ^ sh : Nat) : ℚ)
      = (N : ℚ) := by
    exact_mod_cast Nat.div_add_mod N (2 ^ sh)
  have hmod : ((N % 2 ^ sh : Nat) : ℚ) < 2 ^ sh := by
    exact_mod_cast Nat.mod_lt N (Nat.two_pow_pos sh)
  have hpow : (2 : ℚ) ^ sh = 2 * 2 ^ (sh - 1) := by
    conv_lhs => rw [show sh = sh - 1 + 1 from by omega]
    rw [pow_succ]
    ring
  unfold roundMantissa
  rw [if_neg (by omega : ¬ sh = 0)]
  split_ifs with h1 h2 h3
  · have h1q : ((N % 2 ^ sh : Nat) : ℚ) < 2 ^ (sh - 1) := by exact_mod_cast h1
    constructor <;> linarith
  · have h2q : (2 : ℚ) ^ (sh - 1) < ((N % 2 ^ sh : Nat) : ℚ) := by exact_mod_cast h2
    push_cast
    constructor <;> linarith
  · have heq : ((N % 2 ^ sh : Nat) : ℚ) = 2 ^ (sh - 1) := by
      have h4 : N % 2 ^ sh = 2 ^ (sh - 1) := by omega
      exact_mod_cast h4
    constructor <;> linarith
  · have heq : ((N % 2 ^ sh : Nat) : ℚ) = 2 ^ (sh - 1) := by
      have h4 : N % 2 ^ sh = 2 ^ (sh - 1) := by omega
      exact_mod_cast h4
    push_cast
    constructor <;> linarith

/-- The double product max_chars * 0.7 differs from the exact rational
7 * m / 10 by less than m / 2^52. -/
theorem pyTimes07_bounds (m : Nat) (hm : 1 ≤ m) :
    7 * (m : ℚ) / 10 - m / 4503599627370496 ≤ pyTimes07 m ∧
    pyTimes07 m ≤ 7 * (m : ℚ) / 10 + m / 4503599627370496 := by
  have hm0 : (0 : ℚ) ≤ (m : ℚ) := Nat.cast_nonneg m
  have hNq : ((m * 6305039478318694 : Nat) : ℚ) = (m : ℚ) * 6305039478318694 := by
    push_cast
    ring
  have hNne : m * 6305039478318694 ≠ 0 := by positivity
  simp only [pyTimes07]
  split_ifs with hs
  · rw [hNq, (by norm_num : ((2 : ℚ) ^ 53) = 9007199254740992)]
    constructor <;> linarith
  · set s := (m * 6305039478318694).log2 with hsdef
    have hs53 : 53 ≤ s := by omega
    have hsh : 1 ≤ s - 52 := by omega
    obtain ⟨hlb, hub⟩ := roundMantissa_bounds (m * 6305039478318694) (s - 52) hsh
    rw [hNq] at hlb hub
    have hNge : (2 : ℚ) ^ s ≤ ((m * 6305039478318694 : Nat) : ℚ) := by
      rw [hsdef]
      exact_mod_cast Nat.log2_self_le hNne
    have hspow : (2 : ℚ) ^ (s - 52 - 1) * 9007199254740992 = 2 ^ s := by
      rw [(by norm_num : (9007199254740992 : ℚ) = 2 ^ 53), ← pow_add]
      congr 1
      omega
    have hHle : (2 : ℚ) ^ (s - 52 - 1)
        ≤ (m : ℚ) * 6305039478318694 / 9007199254740992 := by
      have h1 : (2 : ℚ) ^ (s - 52 - 1) * 9007199254740992
          ≤ (m : ℚ) * 6305039478318694 := by
        rw [hspow, ← hNq]
        exact hNge
      linarith
    rw [(by norm_num : ((2 : ℚ) ^ 53) = 9007199254740992)]
    constructor <;> linarith

/-- The double product 180 * 0.7 evaluates to 8866461766385663 / 2^46,
the double printed 125.99999999999999, strictly below the exact 126. -/
theorem pyTimes07_val180 : pyTimes07 180 = 8866461766385663 / 70368744177664 := by
  have hN : 180 * 6305039478318694 = 1134907106097364920 := by norm_num
  have hlog : Nat.log2 1134907106097364920 = 59 := by
    rw [Nat.log2_eq_log_two]
    exact Nat.log_eq_of_pow_le_of_lt_pow (by norm_num) (by norm_num)
  have hrm : roundMantissa 1134907106097364920 7 = 8866461766385663 := by
    unfold roundMantissa
    norm_num
  simp only [pyTimes07, hN, hlog]
  norm_num [hrm]

theorem truncate_text_eq_none (text : List Char) (m : Nat)
    (hcond : ¬ (text = [] ∨ text.length ≤ m))
    (hsp : lastSpaceIdx (text.take (m - 3)) = none) :
    truncate_text text m ellipsisChars
      = pyRstrip (text.take (m - 3)) ++ ellipsisChars := by
  unfold truncate_text
  rw [if_neg hcond]
  have he : ellipsisChars.length = 3 := rfl
  simp only [he, hsp]

theorem truncate_text_eq_break (text : List Char) (m ls : Nat)
    (hcond : ¬ (text = [] ∨ text.length ≤ m))
    (hsp : lastSpaceIdx (text.take (m - 3)) = some ls)
    (hbr : (ls : ℚ) > pyTimes07 m) :
    truncate_text text m ellipsisChars
      = pyRstrip ((text.take (m - 3)).take ls) ++ ellipsisChars := by
  unfold truncate_text
  rw [if_neg hcond]
  have he : ellipsisChars.length = 3 := rfl
  simp only [he, hsp]
  rw [if_pos hbr]

theorem truncate_text_eq_nobreak (text : List Char) (m ls : Nat)
    (hcond : ¬ (text = [] ∨ text.length ≤ m))
    (hsp : lastSpaceIdx (text.take (m - 3)) = some ls)
    (hbr : ¬ (ls : ℚ) > pyTimes07 m) :
    truncate_text text m ellipsisChars
      = pyRstrip (text.take (m - 3)) ++ ellipsisChars := by
  unfold truncate_text
  rw [if_neg hcond]
  have he : ellipsisChars.length = 3 := rfl
  simp only [he, hsp]
  rw [if_neg hbr]

/-- C8 (corrected): whenever truncate_text truncates (input longer than
the budget), the result is a right-stripped prefix of the input with the
ellipsis appended, and the prefix is either the full hard-truncation at
max_chars - 3 (and then no space of the hard prefix lies strictly beyond
70 percent of the budget) or ends at the last space of the hard prefix,
which is taken only when AT LEAST 70 percent of the budget is kept — not,
as claimed, strictly more than 70 percent: the threshold is the double
product max_chars * 0.7, which at budget 180 is 125.99999999999999,
strictly below the exact 126, so a break keeping exactly 70 percent is
reachable (spec_c8_cex). -/
theorem spec_c8_wordbreak (text : List Char) (m : Nat) (hm : 4 ≤ m)
    (hmsz : m ≤ 2 ^ 48) (hlen : m < text.length) :
    ∃ k, k ≤ m - 3 ∧
      truncate_text text m ellipsisChars
        = pyRstrip (text.take k) ++ ellipsisChars ∧
      ((k = m - 3 ∧ ∀ j, j < m - 3 → text.get? j = some ' ' → 10 * j ≤ 7 * m) ∨
       (10 * k ≥ 7 * m ∧ text.get? k = some ' ' ∧
        ∀ j, k < j → j < m - 3 → text.get? j ≠ some ' ')) := by
  have hcond : ¬ (text = [] ∨ text.length ≤ m) := by
    push_neg
    constructor
    · intro h
      rw [h] at hlen
      simp at hlen
    · omega
  have hmq : (m : ℚ) ≤ 281474976710656 := by
    have h1 : m ≤ 281474976710656 := by
      norm_num at hmsz
      exact hmsz
    exact_mod_cast h1
  obtain ⟨hlb, hub⟩ := pyTimes07_bounds m (by omega)
  cases hsp : lastSpaceIdx (text.take (m - 3)) with
  | none =>
    refine ⟨m - 3, le_rfl, truncate_text_eq_none text m hcond hsp, Or.inl ⟨rfl, ?_⟩⟩
    intro j hj hsome
    exfalso
    have h1 : (text.take (m - 3)).get? j = some ' ' := by
      rw [List.get?_take hj]
      exact hsome
    exact lastSpaceIdx_none _ hsp (List.get?_mem h1)
  | some ls =>
    obtain ⟨hlt, hget, hlast⟩ := lastSpaceIdx_spec _ ls hsp
    have htl : (text.take (m - 3)).length = m - 3 := by
      rw [List.length_take]
      omega
    rw [htl] at hlt
    by_cases hbreak : (ls : ℚ) > pyTimes07 m
    · have hb10 : 10 * ls ≥ 7 * m := by
        have h1 : (7 * m : ℚ) < 10 * (ls : ℚ) + 1 := by linarith
        have h2 : 7 * m < 10 * ls + 1 := by exact_mod_cast h1
        omega
      refine ⟨ls, by omega, ?_, Or.inr ⟨hb10, ?_, ?_⟩⟩
      · rw [truncate_text_eq_break text m ls hcond hsp hbreak, List.take_take,
          min_eq_left (by omega : ls ≤ m - 3)]
      · rw [← List.get?_take hlt]
        exact hget
      · intro j hjl hjm
        have h2 := hlast j hjl
        rw [List.get?_take hjm] at h2
        exact h2
    · have hls10 : 10 * ls ≤ 7 * m := by
        push_neg at hbreak
        have h1 : 10 * (ls : ℚ) < 7 * m + 1 := by linarith
        have h2 : 10 * ls < 7 * m + 1 := by exact_mod_cast h1
        omega
      refine ⟨m - 3, le_rfl,
        truncate_text_eq_nobreak text m ls hcond hsp hbreak, Or.inl ⟨rfl, ?_⟩⟩
      intro j hj hsome
      have hjle : j ≤ ls := by
        by_contra hgt
        push_neg at hgt
        have h2 := hlast j hgt
        rw [List.get?_take hj] at h2
        exact h2 hsome
      omega

set_option maxRecDepth 40000 in
/-- C8 counterexample: at budget 180 — the budget of the fields scope,
next_steps and risks and of the default limits — the double threshold
180 * 0.7 is 125.99999999999999, so this 187-character input is broken at
its last space, index 126, keeping exactly 70 percent of the budget and
not more; the result differs from the unbroken hard truncation. -/
theorem spec_c8_cex :
    truncate_text c8CexText 180 ellipsisChars
      = List.replicate 126 'a' ++ ellipsisChars ∧
    10 * 126 = 7 * 180 ∧
    truncate_text c8CexText 180 ellipsisChars
      ≠ pyRstrip (c8CexText.take (180 - 3)) ++ ellipsisChars := by
  have hcond : ¬ (c8CexText = [] ∨ c8CexText.length ≤ 180) := by decide
  have hsp : lastSpaceIdx (c8CexText.take (180 - 3)) = some 126 := by decide
  have hbr : ((126 : Nat) : ℚ) > pyTimes07 180 := by
    rw [pyTimes07_val180]
    norm_num
  rw [truncate_text_eq_break c8CexText 180 126 hcond hsp hbr]
  refine ⟨by decide, by norm_num, by decide⟩

/-- C8 witness: truncating a 15-character sentence to 14 characters breaks
at the last space of the hard prefix, keeping at least (here strictly more
than) 70 percent of the budget. -/
theorem spec_c8_witness :
    ∃ k, k ≤ 14 - 3 ∧
      truncate_text ("hello world foo".toList) 14 ellipsisChars
        = pyRstrip (("hello world foo".toList).take k) ++ ellipsisChars ∧
      ((k = 14 - 3 ∧ ∀ j, j < 14 - 3 →
          ("hello world foo".toList).get? j = some ' ' → 10 * j ≤ 7 * 14) ∨
       (10 * k ≥ 7 * 14 ∧ ("hello world foo".toList).get? k = some ' ' ∧
        ∀ j, k < j → j < 14 - 3 → ("hello world foo".toList).get? j ≠ some ' ')) :=
  spec_c8_wordbreak ("hello world foo".toList) 14 (by decide) (by decide) (by decide)

/-- C7 witness: a concrete raw coordinate list indexed by the verification
pass records the two-decimal roundings of its entries. -/
theorem spec_c7_witness :
    (buildShapePositions [((1:ℚ)/2, 0)]).map coords
      = [((1:ℚ)/2, 0)].map (fun r => (pyRound 2 r.1, pyRound 2 r.2)) :=
  (spec_c7_rounding [((1:ℚ)/2, 0)]).1
